import Mathlib

/-! Formal model of the Auto MOC Linker core (src/main.js).

Text is modelled as `List Char`.  The JavaScript regular-expression calls and
string methods used by the plugin are embedded as executable scanners with the
same backtracking behaviour:

*  String.prototype.split with a non-empty literal separator is `jsSplit`
   (leftmost, non-overlapping occurrences of the separator).
*  String.prototype.replace with a string or regex pattern substitutes the
   dollar patterns in the replacement text (double dollar, dollar-ampersand,
   dollar-backquote, dollar-quote); that is `jsSubst`.
*  The heading pattern built by addLinkToMOC, caret heading backslash-s-star
   dollar with the multiline flag, is the scanner `findH`: the heading occurs
   at a line start followed by a greedy whitespace run that must stop at a
   newline or at the end of input (greedy matching with backtracking means the
   run can swallow newlines of following blank lines).
*  Character classes use the ASCII fragment of the JavaScript semantics
   (the sources and tests use ASCII only): whitespace is space, tab, newline,
   carriage return, vertical tab and form feed; Char.toLower is the ASCII
   lowering used by toLowerCase.

The batch orchestrator (runAutoIndex / processBatch / processTagMappings) is
modelled as a pure fold over the enumerated files.  The vault is an
association list from path to content.  The per-file content cache of the
plugin is invalidated on every modify and delete event, so within and across
runs a cache read always agrees with a fresh vault read; the model therefore
reads the vault directly.  Read and write failures of the storage provider are
injected through two lists of failing paths; the try/catch structure of the
source is mirrored by the corresponding early returns.  Insertions are
recorded as an event list; the run counter totalNotesAdded is the length of
that list.
-/

/-- Whitespace test matching the ASCII fragment of the regex class backslash-s
and of String.prototype.trim. -/
def isWS (c : Char) : Bool :=
  c = ' ' || c = '\t' || c = '\n' || c = '\r' || c = Char.ofNat 11 || c = Char.ofNat 12

/-- Characters allowed in an inline hash tag: the class a-z A-Z 0-9 underscore
hyphen from extractTags. -/
def isTagChar (c : Char) : Bool :=
  (97 ≤ c.toNat && c.toNat ≤ 122) || (65 ≤ c.toNat && c.toNat ≤ 90) ||
  (48 ≤ c.toNat && c.toNat ≤ 57) || c.toNat = 95 || c.toNat = 45

/-- Literal prefix test on character lists (String.prototype.startsWith on the
relevant calls). -/
def beginsWith : List Char → List Char → Bool
  | [], _ => true
  | _ :: _, [] => false
  | a :: as, b :: bs => a = b && beginsWith as bs

/-- Suffix test: String.prototype.endsWith. -/
def endsWithL (t suf : List Char) : Bool :=
  beginsWith suf.reverse t.reverse

/-- ASCII lowering of a text, String.prototype.toLowerCase restricted to
ASCII. -/
def toLowerL (t : List Char) : List Char :=
  t.map Char.toLower

/-- String.prototype.trim (ASCII whitespace). -/
def trimL (t : List Char) : List Char :=
  ((t.dropWhile isWS).reverse.dropWhile isWS).reverse

/-- First occurrence of a literal pattern: returns the text before the
occurrence and the text after it (String.prototype.indexOf combined with the
surrounding substring calls). -/
def findSub (sep : List Char) : List Char → Option (List Char × List Char)
  | [] => if beginsWith sep [] then some ([], []) else none
  | c :: rest =>
    if beginsWith sep (c :: rest) then some ([], (c :: rest).drop sep.length)
    else
      match findSub sep rest with
      | some (b, a) => some (c :: b, a)
      | none => none

/-- Fuelled worker for `jsSplit`; the fuel only serves structural termination
and any fuel above the length of the text gives the same value. -/
def splitOnSubF (sep : List Char) : Nat → List Char → List (List Char)
  | 0, t => [t]
  | fuel + 1, t =>
    match findSub sep t with
    | none => [t]
    | some (b, a) => b :: splitOnSubF sep fuel a

/-- String.prototype.split with a non-empty literal separator. -/
def jsSplit (sep t : List Char) : List (List Char) :=
  splitOnSubF sep (t.length + 1) t

/-- Substitution of the replacement text of String.prototype.replace: the
dollar patterns double-dollar, dollar-ampersand, dollar-backquote and
dollar-quote are expanded against the match, the text before it and the text
after it (the heading regex has no capture groups, so no group patterns
apply). -/
def jsSubst (mtch pre post : List Char) : List Char → List Char
  | [] => []
  | [c] => [c]
  | c :: d :: r =>
    if c = '$' then
      if d = '$' then '$' :: jsSubst mtch pre post r
      else if d = '&' then mtch ++ jsSubst mtch pre post r
      else if d = Char.ofNat 96 then pre ++ jsSubst mtch pre post r
      else if d = Char.ofNat 39 then post ++ jsSubst mtch pre post r
      else '$' :: jsSubst mtch pre post (d :: r)
    else c :: jsSubst mtch pre post (d :: r)

/-- String.prototype.replace with a literal string pattern: replace the first
occurrence, expanding dollar patterns in the replacement. -/
def replaceFirst (pat repl t : List Char) : List Char :=
  match findSub pat t with
  | none => t
  | some (b, a) => b ++ jsSubst pat b a repl ++ a

/-- Count of (possibly overlapping) occurrences of a pattern in a text; used
to state the occurrence-counting part of the merge claim. -/
def countSub (pat : List Char) : List Char → Nat
  | [] => if beginsWith pat [] then 1 else 0
  | c :: rest =>
    (if beginsWith pat (c :: rest) then 1 else 0) + countSub pat rest

/-! Link extractor: extractExistingLinks in src/main.js splits the hub text on
the two-character separator, and every later section that contains a closing
pair contributes the part before it, cut at the first pipe and trimmed. -/

/-- Alias-stripping and trimming of one raw link body: split on the pipe, keep
the first part, trim. -/
def cleanLink (l : List Char) : List Char :=
  match findSub ['|'] l with
  | some (b, _) => trimL b
  | none => trimL l

/-- Name contributed by one section produced by the split on the open
bracket pair: the part before the first closing bracket pair, if any. -/
def secName (sec : List Char) : Option (List Char) :=
  match findSub [']', ']'] sec with
  | some (b, _) => some (cleanLink b)
  | none => none

/-- extractExistingLinks from src/main.js. -/
def extractExistingLinks (content : List Char) : List (List Char) :=
  ((jsSplit ['[', '['] content).drop 1).filterMap secName

/-! Tag extractor: extractTags in src/main.js. -/

/-- The literal word tested for by the three front-matter tag patterns. -/
def tagsLit : List Char := ['t', 'a', 'g', 's']

/-- Front-matter block: the regex caret dash dash dash newline, lazy body,
newline dash dash dash (anchored at the start of the content, lazy body up to
the first closing delimiter). -/
def frontmatterOf (content : List Char) : Option (List Char) :=
  if beginsWith ['-', '-', '-', '\n'] content then
    (findSub ['\n', '-', '-', '-'] (content.drop 4)).map (fun p => p.1)
  else none

/-- Character allowed in the scalar tag value: anything but newline and
square brackets. -/
def scalarChar (c : Char) : Bool :=
  !(c = '\n' || c = '[' || c = ']')

/-- Attempt to read the scalar value at the current position: a non-empty run
of `scalarChar` characters that must end at a newline or at the end of the
front-matter. -/
def scalarValHere (q : List Char) : Option (List Char) :=
  let v := q.takeWhile scalarChar
  if v.isEmpty then none
  else
    match q.drop v.length with
    | [] => some v
    | '\n' :: _ => some v
    | _ => none

/-- Backtracking over the whitespace run after the colon of the scalar
pattern: the regex prefers the longest whitespace run that still lets the
rest of the pattern match. -/
def scalarVal : List Char → Option (List Char)
  | [] => none
  | c :: rest =>
    if isWS c then
      match scalarVal rest with
      | some v => some v
      | none => scalarValHere (c :: rest)
    else scalarValHere (c :: rest)

/-- Attempt of the scalar pattern (tags, whitespace, colon, whitespace,
value, newline-or-end) at one position. -/
def tryScalarAt (s : List Char) : Option (List Char) :=
  if beginsWith tagsLit s then
    match (s.drop 4).dropWhile isWS with
    | ':' :: p => scalarVal p
    | _ => none
  else none

/-- First match of the scalar front-matter pattern, scanning positions left to
right as the regex engine does. -/
def scalarMatch : List Char → Option (List Char)
  | [] => none
  | c :: rest =>
    match tryScalarAt (c :: rest) with
    | some v => some v
    | none => scalarMatch rest

/-- Character allowed inside the inline-array body: the lazy dot of the
pattern excludes newlines, and the body ends at the first closing bracket. -/
def inlineChar (c : Char) : Bool :=
  !(c = ']' || c = '\n')

/-- Attempt of the inline-array pattern (tags, whitespace, colon, whitespace,
open bracket, lazy body, close bracket) at one position. -/
def tryInlineAt (s : List Char) : Option (List Char) :=
  if beginsWith tagsLit s then
    match (s.drop 4).dropWhile isWS with
    | ':' :: p =>
      match p.dropWhile isWS with
      | '[' :: q =>
        let body := q.takeWhile inlineChar
        match q.drop body.length with
        | ']' :: _ => some body
        | _ => none
      | _ => none
    | _ => none
  else none

/-- First match of the inline-array front-matter pattern. -/
def inlineArrMatch : List Char → Option (List Char)
  | [] => none
  | c :: rest =>
    match tryInlineAt (c :: rest) with
    | some v => some v
    | none => inlineArrMatch rest

/-- Test of the block opener pattern caret tags whitespace colon against one
front-matter line (anchored at the line start, arbitrary trailing content). -/
def isTagsOpener (l : List Char) : Bool :=
  beginsWith tagsLit l &&
    (match (l.drop 4).dropWhile isWS with
     | ':' :: _ => true
     | _ => false)

/-- List-item pattern caret whitespace dash whitespace value applied to one
line; the pushed tag is the trimmed capture, which equals the trimmed text
after the dash. -/
def listItem (l : List Char) : Option (List Char) :=
  match l.dropWhile isWS with
  | '-' :: r => if r.isEmpty then none else some (trimL r)
  | _ => none

/-- One step of the multiline block-list loop of extractTags: the state is the
collected tags and the inTagsBlock flag. -/
def blockStep (st : List (List Char) × Bool) (l : List Char) :
    List (List Char) × Bool :=
  if isTagsOpener l then (st.1, true)
  else if st.2 then
    match listItem l with
    | some v => (st.1 ++ [v], true)
    | none => if (trimL l).head? = some '-' then (st.1, true) else (st.1, false)
  else st

/-- Tags contributed by the block-list form, looping over the front-matter
lines exactly as the source does. -/
def blockTags (lines : List (List Char)) : List (List Char) :=
  (lines.foldl blockStep ([], false)).1

/-- Tags contributed by the scalar form (the capture is non-empty whenever the
pattern matches, so the truthiness test of the source always passes). -/
def scalarTags (fm : List Char) : List (List Char) :=
  match scalarMatch fm with
  | some v => [trimL v]
  | none => []

/-- Tags contributed by the inline-array form: the capture is split on commas,
trimmed and cleared of empty entries; an empty capture is falsy and
contributes nothing. -/
def inlineTags (fm : List Char) : List (List Char) :=
  match inlineArrMatch fm with
  | some cap =>
    if cap.isEmpty then []
    else ((jsSplit [','] cap).map trimL).filter (fun t => !t.isEmpty)
  | none => []

/-- Front-matter tags: the three independent patterns in source order. -/
def fmTags (fm : List Char) : List (List Char) :=
  scalarTags fm ++ inlineTags fm ++ blockTags (jsSplit ['\n'] fm)

/-- Inline body tags: split the whole content on the hash sign and keep the
leading tag-character run of every later part. -/
def bodyTags (content : List Char) : List (List Char) :=
  ((jsSplit ['#'] content).drop 1).filterMap (fun part =>
    let run := part.takeWhile isTagChar
    if run.isEmpty then none else some run)

/-- extractTags from src/main.js: front-matter tags first, then inline body
tags, no deduplication. -/
def extractTags (content : List Char) : List (List Char) :=
  (match frontmatterOf content with
   | some fm => fmTags fm
   | none => []) ++ bodyTags content

/-! Section merger: addLinkToMOC in src/main.js. -/

/-- Greedy match of the trailing whitespace-star dollar of the heading
pattern: the longest whitespace run whose end sits at a newline or at the end
of the text, found by backtracking from the longest run. -/
def wsMatch : List Char → Option (List Char × List Char)
  | [] => some ([], [])
  | c :: cs =>
    if isWS c then
      match wsMatch cs with
      | some (w, r) => some (c :: w, r)
      | none => if c = '\n' then some ([], c :: cs) else none
    else if c = '\n' then some ([], c :: cs) else none

/-- Attempt of the heading pattern at one line start: the escaped heading is a
literal prefix, followed by the greedy whitespace run. -/
def matchAt (hd t : List Char) : Option (List Char × List Char) :=
  if beginsWith hd t then wsMatch (t.drop hd.length) else none

/-- Scan for the heading pattern at the line starts strictly after the current
position; returns the text before the match, the matched whitespace and the
text after the match. -/
def findHAfter (hd : List Char) : List Char → Option (List Char × List Char × List Char)
  | [] => none
  | c :: rest =>
    if c = '\n' then
      match matchAt hd rest with
      | some (w, r) => some ([c], w, r)
      | none =>
        match findHAfter hd rest with
        | some (b, w, r) => some (c :: b, w, r)
        | none => none
    else
      match findHAfter hd rest with
      | some (b, w, r) => some (c :: b, w, r)
      | none => none

/-- First match of the multiline heading pattern over the whole text: position
zero is a line start, every position after a newline is a line start. -/
def findH (hd t : List Char) : Option (List Char × List Char × List Char) :=
  match matchAt hd t with
  | some (w, r) => some ([], w, r)
  | none => findHAfter hd t

/-- addLinkToMOC from src/main.js: if the heading pattern matches, replace the
match with heading, newline, link (the replacement text passes through the
dollar substitution of String.prototype.replace); otherwise append two
newlines, the heading, a newline and the link. -/
def addLinkToMOC (content newLink sectionHeading : List Char) : List Char :=
  match findH sectionHeading content with
  | some (before, w, after) =>
    before ++ jsSubst (sectionHeading ++ w) before after (sectionHeading ++ '\n' :: newLink) ++ after
  | none => content ++ '\n' :: '\n' :: (sectionHeading ++ '\n' :: newLink)

/-! Path normalization and mapping resolution. -/

/-- The markdown extension literal. -/
def mdExt : List Char := ['.', 'm', 'd']

/-- ensureMdExtension from src/main.js: empty paths are returned unchanged, a
path already ending in the extension in any letter case is returned
unchanged, otherwise the extension is appended. -/
def ensureMdExtension (path : List Char) : List Char :=
  if path.isEmpty then path
  else if endsWithL (toLowerL path) mdExt then path
  else path ++ mdExt

/-- Hash stripping applied to both sides of the mapping comparison. -/
def stripHash (t : List Char) : List Char :=
  match t with
  | '#' :: r => r
  | _ => t

/-- A configured tag-to-hub mapping. -/
structure Mapping where
  tag : List Char
  mocPath : List Char
deriving DecidableEq

/-- The filter inside processBatch: all mappings whose hash-stripped tag
equals the hash-stripped note tag. -/
def resolveTag (tag : List Char) (mappings : List Mapping) : List Mapping :=
  mappings.filter (fun m => stripHash m.tag = stripHash tag)

/-! Batch orchestrator. -/

/-- A note handle as enumerated by the storage provider. -/
structure FileMeta where
  path : List Char
  basename : List Char
  extension : List Char
deriving DecidableEq

/-- The options of the plugin that influence the run semantics. -/
structure Settings where
  tagMappings : List Mapping
  appendFormat : List Char
  sectionHeading : List Char
deriving DecidableEq

/-- Association-list lookup (JavaScript object property read). -/
def lookupA (k : List Char) : List (List Char × α) → Option α
  | [] => none
  | (k2, v) :: rest => if k2 = k then some v else lookupA k rest

/-- Association-list update (JavaScript object property write): replace the
binding if present, append it otherwise. -/
def setA (k : List Char) (v : α) : List (List Char × α) → List (List Char × α)
  | [] => [(k, v)]
  | (k2, v2) :: rest => if k2 = k then (k, v) :: rest else (k2, v2) :: setA k v rest

/-- State threaded through one run: the vault contents, the per-run hub cache
(content and known links per normalized hub path) and the list of insertion
events (hub path and note basename); totalNotesAdded is the length of the
event list. -/
structure RunState where
  vault : List (List Char × List Char)
  cache : List (List Char × (List Char × List (List Char)))
  events : List (List Char × List Char)
deriving DecidableEq

/-- The placeholder of the append format (open brace, open brace, fileName,
close brace, close brace). -/
def fileNamePat : List Char :=
  [Char.ofNat 123, Char.ofNat 123, 'f', 'i', 'l', 'e', 'N', 'a', 'm', 'e',
   Char.ofNat 125, Char.ofNat 125]

/-- The fallback section heading of processTagMappings. -/
def defaultHeading : List Char := ['#', '#', ' ', 'L', 'i', 'n', 'k', 's']

/-- The body of processTagMappings after the hub content and its known links
are available: skip when the basename is already linked; otherwise build the
link line, merge, write (a failing write raises after the cache was already
lazily filled, leaving counter, vault and cache entry untouched), count and
refresh the cache. -/
def insertStep (S : Settings) (writeFails : List (List Char)) (f : FileMeta)
    (st : RunState) (mocPath hubContent : List Char) (links : List (List Char)) :
    RunState :=
  if f.basename ∈ links then st
  else
    let newLink := replaceFirst fileNamePat f.basename S.appendFormat
    let hd := if S.sectionHeading.isEmpty then defaultHeading else S.sectionHeading
    let updated := addLinkToMOC hubContent newLink hd
    if mocPath ∈ writeFails then st
    else
      { vault := setA mocPath updated st.vault
        cache := setA mocPath (updated, links ++ [f.basename]) st.cache
        events := st.events ++ [(mocPath, f.basename)] }

/-- One mapping iteration of processTagMappings: skip empty hub paths,
normalize the path, skip missing hubs, lazily load the hub cache (a failing
read skips the mapping), then run the insertion step. -/
def processMapping (S : Settings) (readFails writeFails : List (List Char))
    (f : FileMeta) (st : RunState) (m : Mapping) : RunState :=
  if m.mocPath.isEmpty then st
  else
    let mocPath := ensureMdExtension m.mocPath
    match lookupA mocPath st.vault with
    | none => st
    | some hubContent =>
      match lookupA mocPath st.cache with
      | some (c, links) => insertStep S writeFails f st mocPath c links
      | none =>
        if mocPath ∈ readFails then st
        else
          let st1 := { st with
            cache := setA mocPath (hubContent, extractExistingLinks hubContent) st.cache }
          insertStep S writeFails f st1 mocPath hubContent (extractExistingLinks hubContent)

/-- One tag iteration of processBatch: resolve the mappings and fold the
mapping step over them (an empty resolution is a skip). -/
def processTag (S : Settings) (readFails writeFails : List (List Char))
    (f : FileMeta) (st : RunState) (tag : List Char) : RunState :=
  (resolveTag tag S.tagMappings).foldl (processMapping S readFails writeFails f) st

/-- One file iteration of processBatch: skip non-markdown files, skip files
whose read fails, extract the tags and fold the tag step over them. -/
def processFile (S : Settings) (readFails writeFails : List (List Char))
    (st : RunState) (f : FileMeta) : RunState :=
  if f.extension ≠ ['m', 'd'] then st
  else if f.path ∈ readFails then st
  else
    match lookupA f.path st.vault with
    | none => st
    | some content => (extractTags content).foldl (processTag S readFails writeFails f) st

/-- Fold of the file step over the enumerated files (the batch slicing of
runAutoIndex only affects progress reporting, not the processing order). -/
def runFiles (S : Settings) (readFails writeFails : List (List Char))
    (files : List FileMeta) (st : RunState) : RunState :=
  files.foldl (processFile S readFails writeFails) st

/-- One full run of runAutoIndex: counter reset, fresh hub cache, fold over
the files. -/
def runAutoIndex (vault : List (List Char × List Char)) (files : List FileMeta)
    (S : Settings) (readFails writeFails : List (List Char)) : RunState :=
  runFiles S readFails writeFails files { vault := vault, cache := [], events := [] }

/-- One selected (note, hub) pair is already linked: either the mapping has no
hub path, or the normalized hub path does not resolve, or the basename is
among the hub's extracted links. -/
def mappingLinkedB (vault : List (List Char × List Char)) (f : FileMeta)
    (m : Mapping) : Bool :=
  m.mocPath.isEmpty ||
  match lookupA (ensureMdExtension m.mocPath) vault with
  | none => true
  | some hub => (extractExistingLinks hub).contains f.basename

/-- Every mapping resolved for one tag of one note is already linked. -/
def tagLinkedB (vault : List (List Char × List Char)) (mappings : List Mapping)
    (f : FileMeta) (tag : List Char) : Bool :=
  (resolveTag tag mappings).all (mappingLinkedB vault f)

/-- Every (note, hub) pair selected through one file is already linked. -/
def fileLinkedB (vault : List (List Char × List Char)) (mappings : List Mapping)
    (f : FileMeta) : Bool :=
  if f.extension = ['m', 'd'] then
    match lookupA f.path vault with
    | none => true
    | some content => (extractTags content).all (tagLinkedB vault mappings f)
  else true

/-- Decidable form of the hypothesis of the cross-run idempotence claim: for
every markdown file, every tag of its content and every mapping resolved for
that tag whose normalized hub path exists, the basename is already among the
hub's extracted links. -/
def allLinkedB (vault : List (List Char × List Char)) (files : List FileMeta)
    (mappings : List Mapping) : Bool :=
  files.all (fileLinkedB vault mappings)

/-! Invariants used by the run theorems. -/

/-- Every cache entry reflects the vault: its content is the stored hub
content and its link list is the extraction from that content. -/
def cacheFaithful (vault : List (List Char × List Char))
    (cache : List (List Char × (List Char × List (List Char)))) : Prop :=
  ∀ p c ls, lookupA p cache = some (c, ls) →
    lookupA p vault = some c ∧ ls = extractExistingLinks c

/-- Every recorded insertion event is backed by a cache entry that knows the
inserted basename. -/
def eventsCached (st : RunState) : Prop :=
  ∀ hb nm, (hb, nm) ∈ st.events →
    ∃ c ls, lookupA hb st.cache = some (c, ls) ∧ nm ∈ ls

/-! Definitions taken from the specification text, used to compare the claims
with the source behaviour. -/

/-- Modelled from the spec's link-extraction words: find every substring
delimited by an open bracket pair and the next closing bracket pair
(resuming the scan after the closing pair), cut at the first pipe and trim.
Fuelled worker. -/
def claimLinksF : Nat → List Char → List (List Char)
  | 0, _ => []
  | fuel + 1, t =>
    match findSub ['[', '['] t with
    | none => []
    | some (_, after) =>
      match findSub [']', ']'] after with
      | none => []
      | some (name, rest) => cleanLink name :: claimLinksF fuel rest

/-- Modelled from the spec's link-extraction words (wrapper with adequate
fuel). -/
def claimLinks (t : List Char) : List (List Char) :=
  claimLinksF (t.length + 1) t

/-- Segment-wise scanner equivalent to the source link extractor: after each
open bracket pair, the text up to the next open bracket pair (or the end)
contributes a name when it contains a closing pair.  Fuelled worker. -/
def linksScanTailF : Nat → List Char → List (List Char)
  | 0, _ => []
  | fuel + 1, rest =>
    match findSub ['[', '['] rest with
    | none =>
      match findSub [']', ']'] rest with
      | some (b, _) => [cleanLink b]
      | none => []
    | some (seg, rest2) =>
      (match findSub [']', ']'] seg with
       | some (b, _) => [cleanLink b]
       | none => []) ++ linksScanTailF fuel rest2

/-- Segment-wise scanner (wrapper): text before the first open bracket pair
contributes nothing. -/
def linksScan (t : List Char) : List (List Char) :=
  match findSub ['[', '['] t with
  | none => []
  | some (_, rest) => linksScanTailF (rest.length + 1) rest

/-- Modelled from the spec's block-list words: the contiguous list items
directly following the opener line, ending at the first line that is not a
list item. -/
def claimItems : List (List Char) → List (List Char)
  | [] => []
  | l :: ls =>
    match listItem l with
    | some v => v :: claimItems ls
    | none => []

/-- Modelled from the spec's block-list words: a line exactly tags-colon up to
surrounding whitespace opens the block. -/
def blockTagsClaim : List (List Char) → List (List Char)
  | [] => []
  | l :: ls =>
    if trimL l = tagsLit ++ [':'] then claimItems ls else blockTagsClaim ls

/-- Recursive restatement of the source block-list loop, used as the amended
specification: an opener (re)starts the block, items contribute their trimmed
value, a non-item line whose trimmed form starts with a dash keeps the block
open, any other line closes it. -/
def blockTagsSpecAux : Bool → List (List Char) → List (List Char)
  | _, [] => []
  | b, l :: ls =>
    if isTagsOpener l then blockTagsSpecAux true ls
    else if b then
      match listItem l with
      | some v => v :: blockTagsSpecAux true ls
      | none =>
        if (trimL l).head? = some '-' then blockTagsSpecAux true ls
        else blockTagsSpecAux false ls
    else blockTagsSpecAux false ls

/-! Concrete scenario of section 8 of the specification. -/

/-- The two enumerated markdown files of the scenario. -/
def specFiles : List FileMeta :=
  [{ path := ['A', '.', 'm', 'd'], basename := ['A'], extension := ['m', 'd'] },
   { path := ['M', 'O', 'C', '.', 'm', 'd'], basename := ['M', 'O', 'C'],
     extension := ['m', 'd'] }]

/-- The initial vault of the scenario: a note with a front-matter tag list and
a hub containing only the section heading. -/
def specVault : List (List Char × List Char) :=
  [(['A', '.', 'm', 'd'],
    ('-' :: '-' :: '-' :: '\n' :: tagsLit) ++ (':' :: ' ' :: '[' :: 'm' :: 'a' :: 't' :: 'h' :: 's' :: ']' :: '\n' :: '-' :: '-' :: '-' :: '\n' :: [])),
   (['M', 'O', 'C', '.', 'm', 'd'], defaultHeading ++ ['\n'])]

/-- The scenario settings: one mapping, the default append format and the
default section heading. -/
def specSettings : Settings :=
  { tagMappings := [{ tag := ['m', 'a', 't', 'h', 's'], mocPath := ['M', 'O', 'C'] }],
    appendFormat := ('-' :: ' ' :: '[' :: '[' :: fileNamePat) ++ [']', ']', '\n'],
    sectionHeading := defaultHeading }

/-- The hub content expected after the first run of the scenario. -/
def specHubAfter : List Char :=
  defaultHeading ++ ['\n', '-', ' ', '[', '[', 'A', ']', ']', '\n']

/-! Basic lemmas about the string primitives. -/

theorem beginsWith_nil_elim {sep : List Char} (h : beginsWith sep [] = true) :
    sep = [] := by
  cases sep with
  | nil => rfl
  | cons c cs => simp [beginsWith] at h

theorem beginsWith_eq_append {p t : List Char} (h : beginsWith p t = true) :
    t = p ++ t.drop p.length := by
  induction p generalizing t with
  | nil => simp
  | cons a as ih =>
    cases t with
    | nil => simp [beginsWith] at h
    | cons b bs =>
      simp only [beginsWith, Bool.and_eq_true, decide_eq_true_eq] at h
      obtain ⟨h1, h2⟩ := h
      subst h1
      simpa using ih h2

theorem beginsWith_append_self (p r : List Char) : beginsWith p (p ++ r) = true := by
  induction p with
  | nil => rfl
  | cons a as ih => simp [beginsWith, ih]

theorem findSub_sound {sep : List Char} :
    ∀ {t b a : List Char}, findSub sep t = some (b, a) → t = b ++ sep ++ a := by
  intro t
  induction t with
  | nil =>
    intro b a h
    unfold findSub at h
    by_cases hb : beginsWith sep [] = true
    · rw [if_pos hb] at h
      obtain ⟨h1, h2⟩ := Prod.mk.injEq .. ▸ Option.some.injEq .. ▸ h
      have := beginsWith_nil_elim hb
      simp [← h1, ← h2, this]
    · rw [if_neg hb] at h
      exact absurd h (by simp)
  | cons c rest ih =>
    intro b a h
    unfold findSub at h
    by_cases hb : beginsWith sep (c :: rest) = true
    · rw [if_pos hb] at h
      obtain ⟨h1, h2⟩ := Prod.mk.injEq .. ▸ Option.some.injEq .. ▸ h
      rw [← h1, ← h2]
      simpa using beginsWith_eq_append hb
    · rw [if_neg hb] at h
      cases hfs : findSub sep rest with
      | none => rw [hfs] at h; exact absurd h (by simp)
      | some ba =>
        obtain ⟨b', a'⟩ := ba
        rw [hfs] at h
        obtain ⟨h1, h2⟩ := Prod.mk.injEq .. ▸ Option.some.injEq .. ▸ h
        rw [← h1, ← h2]
        simpa using ih hfs

theorem findSub_single_none {x : Char} {t : List Char} (h : ∀ c ∈ t, c ≠ x) :
    findSub [x] t = none := by
  induction t with
  | nil => rfl
  | cons c rest ih =>
    have hc : ¬(x = c) := fun hh => (h c (by simp)) hh.symm
    have hrest : findSub [x] rest = none := ih (fun c hm => h c (by simp [hm]))
    simp [findSub, beginsWith, hc, hrest]

theorem findSub_single_app {x : Char} {a : List Char} (b : List Char)
    (h : ∀ c ∈ a, c ≠ x) : findSub [x] (a ++ x :: b) = some (a, b) := by
  induction a with
  | nil => simp [findSub, beginsWith]
  | cons c as ih =>
    have hc : ¬(x = c) := fun hh => (h c (by simp)) hh.symm
    have hrest := ih (fun c hm => h c (by simp [hm]))
    simp [findSub, beginsWith, hc, hrest]

theorem splitOnSubF_step (sep : List Char) (fuel : Nat) (t : List Char) :
    splitOnSubF sep (fuel + 1) t =
      match findSub sep t with
      | none => [t]
      | some (b, a) => b :: splitOnSubF sep fuel a := rfl

theorem findSub_shrink {sep t b a : List Char} (hsep : sep ≠ [])
    (h : findSub sep t = some (b, a)) : a.length < t.length := by
  rw [findSub_sound h]
  cases sep with
  | nil => exact absurd rfl hsep
  | cons s ss => simp; omega

theorem splitOnSubF_fuel {sep : List Char} (hsep : sep ≠ []) :
    ∀ f1 f2 t, t.length < f1 → t.length < f2 →
      splitOnSubF sep f1 t = splitOnSubF sep f2 t := by
  intro f1
  induction f1 with
  | zero => intro f2 t h1 _; exact absurd h1 (by omega)
  | succ f1 ih =>
    intro f2 t h1 h2
    cases f2 with
    | zero => exact absurd h2 (by omega)
    | succ f2 =>
      rw [splitOnSubF_step, splitOnSubF_step]
      cases hfs : findSub sep t with
      | none => rfl
      | some ba =>
        obtain ⟨b, a⟩ := ba
        have ha : a.length < t.length := findSub_shrink hsep hfs
        show b :: splitOnSubF sep f1 a = b :: splitOnSubF sep f2 a
        rw [ih f2 a (by omega) (by omega)]

theorem jsSplit_eq_cons {sep t b a : List Char} (hsep : sep ≠ [])
    (h : findSub sep t = some (b, a)) : jsSplit sep t = b :: jsSplit sep a := by
  have ha : a.length < t.length := findSub_shrink hsep h
  unfold jsSplit
  rw [splitOnSubF_step, h]
  show b :: splitOnSubF sep t.length a = b :: splitOnSubF sep (a.length + 1) a
  rw [splitOnSubF_fuel hsep t.length (a.length + 1) a (by omega) (by omega)]

theorem jsSplit_eq_single {sep t : List Char} (h : findSub sep t = none) :
    jsSplit sep t = [t] := by
  unfold jsSplit
  rw [splitOnSubF_step, h]

theorem jsSplit_single_pair {x : Char} {a b : List Char}
    (ha : ∀ c ∈ a, c ≠ x) (hb : ∀ c ∈ b, c ≠ x) :
    jsSplit [x] (a ++ x :: b) = [a, b] := by
  rw [jsSplit_eq_cons (by simp) (findSub_single_app b ha),
    jsSplit_eq_single (findSub_single_none hb)]

/-! Lemmas about the heading matcher of addLinkToMOC. -/

theorem wsMatch_sound :
    ∀ {t w r : List Char}, wsMatch t = some (w, r) →
      t = w ++ r ∧ (∀ c ∈ w, isWS c = true) ∧ (r = [] ∨ r.head? = some '\n') := by
  intro t
  induction t with
  | nil =>
    intro w r h
    simp only [wsMatch, Option.some.injEq, Prod.mk.injEq] at h
    obtain ⟨h1, h2⟩ := h
    simp [← h1, ← h2]
  | cons c cs ih =>
    intro w r h
    unfold wsMatch at h
    by_cases hws : isWS c = true
    · rw [if_pos hws] at h
      cases hm : wsMatch cs with
      | some wr =>
        obtain ⟨w', r'⟩ := wr
        rw [hm] at h
        simp only [Option.some.injEq, Prod.mk.injEq] at h
        obtain ⟨h1, h2⟩ := h
        obtain ⟨he, hw, hr⟩ := ih hm
        subst h1; subst h2
        refine ⟨by simp [he], ?_, hr⟩
        intro x hx
        rcases List.mem_cons.mp hx with h | h
        · subst h; exact hws
        · exact hw x h
      | none =>
        rw [hm] at h
        by_cases hc : c = '\n'
        · rw [if_pos hc] at h
          simp only [Option.some.injEq, Prod.mk.injEq] at h
          obtain ⟨h1, h2⟩ := h
          subst h1; subst h2
          exact ⟨rfl, by simp, Or.inr (by simp [hc])⟩
        · rw [if_neg hc] at h
          exact absurd h (by simp)
    · rw [if_neg hws] at h
      by_cases hc : c = '\n'
      · rw [if_pos hc] at h
        simp only [Option.some.injEq, Prod.mk.injEq] at h
        obtain ⟨h1, h2⟩ := h
        subst h1; subst h2
        exact ⟨rfl, by simp, Or.inr (by simp [hc])⟩
      · rw [if_neg hc] at h
        exact absurd h (by simp)

theorem wsMatch_isSome :
    ∀ (w r : List Char), (∀ c ∈ w, isWS c = true) →
      (r = [] ∨ r.head? = some '\n') → (wsMatch (w ++ r)).isSome := by
  intro w
  induction w with
  | nil =>
    intro r _ hr
    rcases hr with h | h
    · subst h; simp [wsMatch]
    · cases r with
      | nil => simp [wsMatch]
      | cons c cs =>
        simp only [List.head?_cons, Option.some.injEq] at h
        subst h
        show (wsMatch ('\n' :: cs)).isSome
        unfold wsMatch
        rw [if_pos (by simp [isWS])]
        cases wsMatch cs with
        | some wr => simp
        | none => simp
  | cons c cs ih =>
    intro r hw hr
    have hc : isWS c = true := hw c (by simp)
    show (wsMatch (c :: (cs ++ r))).isSome
    unfold wsMatch
    rw [if_pos hc]
    have hih := ih r (fun x hx => hw x (by simp [hx])) hr
    cases hm : wsMatch (cs ++ r) with
    | some wr => simp
    | none => rw [hm] at hih; simp at hih

theorem matchAt_sound {hd t w r : List Char} (h : matchAt hd t = some (w, r)) :
    t = hd ++ w ++ r ∧ (∀ c ∈ w, isWS c = true) ∧ (r = [] ∨ r.head? = some '\n') := by
  unfold matchAt at h
  by_cases hb : beginsWith hd t = true
  · rw [if_pos hb] at h
    obtain ⟨he, hw, hr⟩ := wsMatch_sound h
    refine ⟨?_, hw, hr⟩
    rw [List.append_assoc, ← he]
    exact beginsWith_eq_append hb
  · rw [if_neg hb] at h
    exact absurd h (by simp)

theorem matchAt_isSome (hd w r : List Char) (hw : ∀ c ∈ w, isWS c = true)
    (hr : r = [] ∨ r.head? = some '\n') : (matchAt hd (hd ++ w ++ r)).isSome := by
  unfold matchAt
  rw [if_pos (by rw [List.append_assoc]; exact beginsWith_append_self hd (w ++ r))]
  have hdrop : (hd ++ w ++ r).drop hd.length = w ++ r := by
    rw [List.append_assoc]
    simp
  rw [hdrop]
  exact wsMatch_isSome w r hw hr

theorem findHAfter_sound {hd : List Char} :
    ∀ {t b w r : List Char}, findHAfter hd t = some (b, w, r) →
      t = b ++ hd ++ w ++ r ∧ b.getLast? = some '\n' ∧
      (∀ c ∈ w, isWS c = true) ∧ (r = [] ∨ r.head? = some '\n') := by
  intro t
  induction t with
  | nil => intro b w r h; simp [findHAfter] at h
  | cons c cs ih =>
    intro b w r h
    unfold findHAfter at h
    by_cases hc : c = '\n'
    · rw [if_pos hc] at h
      cases hm : matchAt hd cs with
      | some wr =>
        obtain ⟨w', r'⟩ := wr
        rw [hm] at h
        simp only [Option.some.injEq, Prod.mk.injEq] at h
        obtain ⟨h1, h2, h3⟩ := h
        subst h1; subst h2; subst h3
        obtain ⟨he, hw, hr⟩ := matchAt_sound hm
        exact ⟨by simp [he], by simp [hc], hw, hr⟩
      | none =>
        rw [hm] at h
        cases hfa : findHAfter hd cs with
        | some bwr =>
          obtain ⟨b', w', r'⟩ := bwr
          rw [hfa] at h
          simp only [Option.some.injEq, Prod.mk.injEq] at h
          obtain ⟨h1, h2, h3⟩ := h
          subst h1; subst h2; subst h3
          obtain ⟨he, hl, hw, hr⟩ := ih hfa
          refine ⟨by simp [he], ?_, hw, hr⟩
          cases b' with
          | nil => simp at hl
          | cons x xs => rw [List.getLast?_cons_cons]; exact hl
        | none => rw [hfa] at h; exact absurd h (by simp)
    · rw [if_neg hc] at h
      cases hfa : findHAfter hd cs with
      | some bwr =>
        obtain ⟨b', w', r'⟩ := bwr
        rw [hfa] at h
        simp only [Option.some.injEq, Prod.mk.injEq] at h
        obtain ⟨h1, h2, h3⟩ := h
        subst h1; subst h2; subst h3
        obtain ⟨he, hl, hw, hr⟩ := ih hfa
        refine ⟨by simp [he], ?_, hw, hr⟩
        cases b' with
        | nil => simp at hl
        | cons x xs => rw [List.getLast?_cons_cons]; exact hl
      | none => rw [hfa] at h; exact absurd h (by simp)

theorem findH_sound {hd t b w r : List Char} (h : findH hd t = some (b, w, r)) :
    t = b ++ hd ++ w ++ r ∧ (b = [] ∨ b.getLast? = some '\n') ∧
    (∀ c ∈ w, isWS c = true) ∧ (r = [] ∨ r.head? = some '\n') := by
  unfold findH at h
  cases hm : matchAt hd t with
  | some wr =>
    obtain ⟨w', r'⟩ := wr
    rw [hm] at h
    simp only [Option.some.injEq, Prod.mk.injEq] at h
    obtain ⟨h1, h2, h3⟩ := h
    subst h1; subst h2; subst h3
    obtain ⟨he, hw, hr⟩ := matchAt_sound hm
    exact ⟨by simpa using he, Or.inl rfl, hw, hr⟩
  | none =>
    rw [hm] at h
    obtain ⟨he, hl, hw, hr⟩ := findHAfter_sound h
    exact ⟨he, Or.inr hl, hw, hr⟩

theorem findHAfter_isSome (hd : List Char) :
    ∀ (b w r : List Char), b.getLast? = some '\n' →
      (∀ c ∈ w, isWS c = true) → (r = [] ∨ r.head? = some '\n') →
      (findHAfter hd (b ++ hd ++ w ++ r)).isSome := by
  intro b
  induction b with
  | nil => intro w r h _ _; simp at h
  | cons c bs ih =>
    intro w r hb hw hr
    show (findHAfter hd (c :: (bs ++ hd ++ w ++ r))).isSome
    unfold findHAfter
    by_cases hc : c = '\n'
    · rw [if_pos hc]
      cases bs with
      | nil =>
        have hms := matchAt_isSome hd w r hw hr
        cases hm : matchAt hd ([] ++ hd ++ w ++ r) with
        | some wr => simp
        | none =>
          rw [show ([] : List Char) ++ hd ++ w ++ r = hd ++ w ++ r by simp] at hm
          rw [hm] at hms; simp at hms
      | cons b2 bs2 =>
        have hb' : (b2 :: bs2).getLast? = some '\n' := by
          rw [← List.getLast?_cons_cons (a := c)]; exact hb
        have hih := ih w r hb' hw hr
        cases hm : matchAt hd ((b2 :: bs2) ++ hd ++ w ++ r) with
        | some wr => simp
        | none =>
          cases hfa : findHAfter hd ((b2 :: bs2) ++ hd ++ w ++ r) with
          | some bwr => simp
          | none => rw [hfa] at hih; simp at hih
    · rw [if_neg hc]
      cases bs with
      | nil =>
        simp only [List.getLast?_singleton, Option.some.injEq] at hb
        exact absurd hb hc
      | cons b2 bs2 =>
        have hb' : (b2 :: bs2).getLast? = some '\n' := by
          rw [← List.getLast?_cons_cons (a := c)]; exact hb
        have hih := ih w r hb' hw hr
        cases hfa : findHAfter hd ((b2 :: bs2) ++ hd ++ w ++ r) with
        | some bwr => simp
        | none => rw [hfa] at hih; simp at hih

theorem findH_isSome {hd t b w r : List Char} (ht : t = b ++ hd ++ w ++ r)
    (hb : b = [] ∨ b.getLast? = some '\n') (hw : ∀ c ∈ w, isWS c = true)
    (hr : r = [] ∨ r.head? = some '\n') : (findH hd t).isSome := by
  unfold findH
  cases hm : matchAt hd t with
  | some wr => simp
  | none =>
    rcases hb with hb | hb
    · subst hb
      have := matchAt_isSome hd w r hw hr
      rw [show ([] : List Char) ++ hd ++ w ++ r = hd ++ w ++ r by simp] at ht
      rw [← ht] at this
      rw [hm] at this
      simp at this
    · have := findHAfter_isSome hd b w r hb hw hr
      rw [← ht] at this
      exact this

/-! Lemmas about the replacement substitution. -/

theorem jsSubst_literal_aux (m pre post : List Char) :
    ∀ (n : Nat) (tmpl : List Char), tmpl.length ≤ n → (∀ c ∈ tmpl, c ≠ '$') →
      jsSubst m pre post tmpl = tmpl := by
  intro n
  induction n with
  | zero =>
    intro tmpl hlen _
    cases tmpl with
    | nil => rfl
    | cons c cs => simp at hlen
  | succ n ih =>
    intro tmpl hlen h
    match tmpl with
    | [] => rfl
    | [c] => rfl
    | c :: d :: r =>
      have hc : ¬(c = '$') := h c (by simp)
      show (if c = '$' then _ else c :: jsSubst m pre post (d :: r)) = c :: d :: r
      rw [if_neg hc]
      rw [ih (d :: r) (by simp at hlen ⊢; omega) (fun x hx => h x (by simp [List.mem_cons] at hx ⊢; tauto))]

theorem jsSubst_literal {m pre post tmpl : List Char}
    (h : ∀ c ∈ tmpl, c ≠ '$') : jsSubst m pre post tmpl = tmpl :=
  jsSubst_literal_aux m pre post tmpl.length tmpl le_rfl h

/-! Path normalization: claim C10. -/

theorem toLowerL_append (a b : List Char) :
    toLowerL (a ++ b) = toLowerL a ++ toLowerL b :=
  List.map_append Char.toLower a b

theorem endsWithL_append (t s : List Char) : endsWithL (t ++ s) s = true := by
  unfold endsWithL
  rw [List.reverse_append]
  exact beginsWith_append_self s.reverse t.reverse

/-- C10: hub-path normalization is idempotent; the empty path is returned
unchanged, a path ending in the extension in any letter case is returned
unchanged (witnessed by the upper-case sample), and otherwise the extension is
appended (witnessed by the scenario hub path). -/
theorem C10_ensureMd_idempotent :
    (∀ path : List Char,
      ensureMdExtension (ensureMdExtension path) = ensureMdExtension path) ∧
    ensureMdExtension ['a', '.', 'M', 'D'] = ['a', '.', 'M', 'D'] ∧
    ensureMdExtension ['M', 'O', 'C'] = ['M', 'O', 'C'] ++ mdExt ∧
    ensureMdExtension [] = [] := by
  refine ⟨?_, by decide, by decide, rfl⟩
  intro path
  unfold ensureMdExtension
  by_cases h0 : path.isEmpty = true
  · simp [h0]
  · rw [if_neg h0]
    by_cases h1 : endsWithL (toLowerL path) mdExt = true
    · rw [if_pos h1, if_neg h0, if_pos h1]
    · rw [if_neg h1]
      have hne : ¬((path ++ mdExt).isEmpty = true) := by
        cases path <;> simp [mdExt]
      rw [if_neg hne]
      have hends : endsWithL (toLowerL (path ++ mdExt)) mdExt = true := by
        rw [toLowerL_append, show toLowerL mdExt = mdExt by decide]
        exact endsWithL_append (toLowerL path) mdExt
      rw [if_pos hends]

/-! Section merger: claims C3 and C4. -/

/-- C3 counterexample: a single merge call whose link line overlaps the glue
text it is inserted with can increase the number of occurrences of the link
line by two, not by one: merging the link line newline-newline-H-newline into
the empty hub under heading H yields a text with two occurrences while the
input had zero. -/
theorem C3_counterexample :
    countSub ['\n', '\n', 'H', '\n']
        (addLinkToMOC [] ['\n', '\n', 'H', '\n'] ['H']) = 2 ∧
    countSub ['\n', '\n', 'H', '\n'] ([] : List Char) = 0 := by decide

/-- C3 (amended): for every hub text, dollar-free heading and dollar-free
link line, a single merge call inserts the segment heading-newline-link
exactly once: either the heading pattern matches and the output replaces the
matched heading and trailing whitespace run with that segment, or the output
is the input followed by two newlines and that segment; the merger performs
no duplicate check (this holds whether or not the link already occurs), but
the number of substring occurrences of the link line can grow by more than
one when the link line overlaps the inserted context. -/
theorem C3_merge_single_insertion (content hd link : List Char)
    (hhd : ∀ c ∈ hd, c ≠ '$') (hlink : ∀ c ∈ link, c ≠ '$') :
    (∃ b w r, content = b ++ hd ++ w ++ r ∧ (b = [] ∨ b.getLast? = some '\n') ∧
      (∀ c ∈ w, isWS c = true) ∧ (r = [] ∨ r.head? = some '\n') ∧
      addLinkToMOC content link hd = b ++ hd ++ '\n' :: link ++ r) ∨
    addLinkToMOC content link hd = content ++ '\n' :: '\n' :: (hd ++ '\n' :: link) := by
  unfold addLinkToMOC
  cases hf : findH hd content with
  | some bwr =>
    obtain ⟨b, w, r⟩ := bwr
    obtain ⟨he, hb, hw, hr⟩ := findH_sound hf
    left
    refine ⟨b, w, r, he, hb, hw, hr, ?_⟩
    have htm : ∀ c ∈ hd ++ '\n' :: link, c ≠ '$' := by
      intro c hc
      rcases List.mem_append.mp hc with h | h
      · exact hhd c h
      · rcases List.mem_cons.mp h with h | h
        · subst h; decide
        · exact hlink c h
    show b ++ jsSubst (hd ++ w) b r (hd ++ '\n' :: link) ++ r = b ++ hd ++ '\n' :: link ++ r
    rw [jsSubst_literal htm]
    simp [List.append_assoc]
  | none =>
    right
    rfl

/-- C3 witness: the amended insertion shape at a concrete input with no
heading present. -/
theorem C3_witness :
    (∃ b w r, (['x'] : List Char) = b ++ ['H'] ++ w ++ r ∧
      (b = [] ∨ b.getLast? = some '\n') ∧ (∀ c ∈ w, isWS c = true) ∧
      (r = [] ∨ r.head? = some '\n') ∧
      addLinkToMOC ['x'] ['L'] ['H'] = b ++ ['H'] ++ '\n' :: ['L'] ++ r) ∨
    addLinkToMOC ['x'] ['L'] ['H'] = ['x'] ++ '\n' :: '\n' :: (['H'] ++ '\n' :: ['L']) :=
  C3_merge_single_insertion ['x'] ['H'] ['L'] (by decide) (by decide)

/-- C4 counterexample: when a blank line follows the heading line, the greedy
trailing-whitespace part of the heading pattern swallows the newline of the
heading line, so the merge deletes one blank line instead of inserting the
link directly under the unchanged heading line: on heading-newline-newline-foo
the result joins the link and foo with a single newline, not the two the claim
predicts. -/
theorem C4_counterexample :
    addLinkToMOC (defaultHeading ++ ['\n', '\n', 'f', 'o', 'o'])
        ['-', ' ', '[', '[', 'B', ']', ']'] defaultHeading =
      defaultHeading ++
        ('\n' :: '-' :: ' ' :: '[' :: '[' :: 'B' :: ']' :: ']' :: '\n' :: ['f', 'o', 'o']) ∧
    addLinkToMOC (defaultHeading ++ ['\n', '\n', 'f', 'o', 'o'])
        ['-', ' ', '[', '[', 'B', ']', ']'] defaultHeading ≠
      defaultHeading ++
        ('\n' :: '-' :: ' ' :: '[' :: '[' :: 'B' :: ']' :: ']' :: '\n' :: '\n' :: ['f', 'o', 'o']) := by
  decide

/-- C4 (amended): when the hub text contains the dollar-free heading at a line
start followed by a whitespace run ending at a line boundary, merge replaces
the first such match (heading plus its greedy trailing-whitespace run, which
may swallow newlines of following blank lines) by the heading, a newline and
the dollar-free link line, leaving the text before and after the match
unchanged; on a heading line followed directly by existing entries this
inserts the link immediately under the heading and above them, as in the
concrete heading-reuse example. -/
theorem C4_heading_found_insertion :
    (∀ content hd link : List Char, (∀ c ∈ hd, c ≠ '$') → (∀ c ∈ link, c ≠ '$') →
      (∃ b w r, content = b ++ hd ++ w ++ r ∧ (b = [] ∨ b.getLast? = some '\n') ∧
        (∀ c ∈ w, isWS c = true) ∧ (r = [] ∨ r.head? = some '\n')) →
      ∃ b w r, content = b ++ hd ++ w ++ r ∧ (b = [] ∨ b.getLast? = some '\n') ∧
        (∀ c ∈ w, isWS c = true) ∧ (r = [] ∨ r.head? = some '\n') ∧
        addLinkToMOC content link hd = b ++ hd ++ '\n' :: link ++ r) ∧
    addLinkToMOC
        (defaultHeading ++ ('\n' :: '-' :: ' ' :: '[' :: '[' :: 'A' :: ']' :: ']' :: []))
        ('-' :: ' ' :: '[' :: '[' :: 'B' :: ']' :: ']' :: []) defaultHeading =
      defaultHeading ++
        ('\n' :: '-' :: ' ' :: '[' :: '[' :: 'B' :: ']' :: ']' ::
         '\n' :: '-' :: ' ' :: '[' :: '[' :: 'A' :: ']' :: ']' :: []) := by
  constructor
  · intro content hd link hhd hlink hex
    obtain ⟨b, w, r, he, hb, hw, hr⟩ := hex
    have hsome := findH_isSome he hb hw hr
    cases hf : findH hd content with
    | none => rw [hf] at hsome; simp at hsome
    | some bwr =>
      obtain ⟨b', w', r'⟩ := bwr
      obtain ⟨he', hb', hw', hr'⟩ := findH_sound hf
      refine ⟨b', w', r', he', hb', hw', hr', ?_⟩
      unfold addLinkToMOC
      rw [hf]
      have htm : ∀ c ∈ hd ++ '\n' :: link, c ≠ '$' := by
        intro c hc
        rcases List.mem_append.mp hc with h | h
        · exact hhd c h
        · rcases List.mem_cons.mp h with h | h
          · subst h; decide
          · exact hlink c h
      show b' ++ jsSubst (hd ++ w') b' r' (hd ++ '\n' :: link) ++ r' =
        b' ++ hd ++ '\n' :: link ++ r'
      rw [jsSubst_literal htm]
      simp [List.append_assoc]
  · decide

/-- C4 witness: the amended statement applied at the heading-reuse example,
discharging the match-existence hypothesis with the explicit decomposition. -/
theorem C4_witness :
    ∃ b w r,
      (defaultHeading ++ ('\n' :: '-' :: ' ' :: '[' :: '[' :: 'A' :: ']' :: ']' :: [])) =
        b ++ defaultHeading ++ w ++ r ∧
      (b = [] ∨ b.getLast? = some '\n') ∧ (∀ c ∈ w, isWS c = true) ∧
      (r = [] ∨ r.head? = some '\n') ∧
      addLinkToMOC
          (defaultHeading ++ ('\n' :: '-' :: ' ' :: '[' :: '[' :: 'A' :: ']' :: ']' :: []))
          ('-' :: ' ' :: '[' :: '[' :: 'B' :: ']' :: ']' :: []) defaultHeading =
        b ++ defaultHeading ++ '\n' ::
          ('-' :: ' ' :: '[' :: '[' :: 'B' :: ']' :: ']' :: []) ++ r :=
  C4_heading_found_insertion.1
    (defaultHeading ++ ('\n' :: '-' :: ' ' :: '[' :: '[' :: 'A' :: ']' :: ']' :: []))
    defaultHeading ('-' :: ' ' :: '[' :: '[' :: 'B' :: ']' :: ']' :: [])
    (by decide) (by decide)
    ⟨[], [], '\n' :: '-' :: ' ' :: '[' :: '[' :: 'A' :: ']' :: ']' :: [],
      by decide, Or.inl rfl, by decide, Or.inr rfl⟩

/-! Link extractor: claim C5. -/

/-- C5 counterexample: on a nested open bracket pair the source extractor and
the claimed scan disagree: the source splits on open pairs and finds the name
after the innermost one, while the claimed algorithm takes everything from the
first open pair to the next closing pair. -/
theorem C5_counterexample :
    extractExistingLinks ['x', '[', '[', 'a', '[', '[', 'b', ']', ']', 'y'] = [['b']] ∧
    claimLinks ['x', '[', '[', 'a', '[', '[', 'b', ']', ']', 'y'] = [['a', '[', '[', 'b']] := by
  decide

theorem linksScanTailF_step (fuel : Nat) (rest : List Char) :
    linksScanTailF (fuel + 1) rest =
      (match findSub ['[', '['] rest with
       | none =>
         match findSub [']', ']'] rest with
         | some (b, _) => [cleanLink b]
         | none => []
       | some (seg, rest2) =>
         (match findSub [']', ']'] seg with
          | some (b, _) => [cleanLink b]
          | none => []) ++ linksScanTailF fuel rest2) := rfl

theorem filterMap_secName_single (x : List Char) :
    List.filterMap secName [x] =
      (match findSub [']', ']'] x with
       | some (b, _) => [cleanLink b]
       | none => []) := by
  cases h : findSub [']', ']'] x with
  | some p =>
    obtain ⟨b, a⟩ := p
    simp [List.filterMap_cons, secName, h]
  | none => simp [List.filterMap_cons, secName, h]

theorem linksScanTailF_spec :
    ∀ (fuel : Nat) (rest : List Char), rest.length < fuel →
      List.filterMap secName (jsSplit ['[', '['] rest) = linksScanTailF fuel rest := by
  intro fuel
  induction fuel with
  | zero => intro rest h; exact absurd h (by omega)
  | succ fuel ih =>
    intro rest h
    rw [linksScanTailF_step]
    cases hfs : findSub ['[', '['] rest with
    | none => rw [jsSplit_eq_single hfs, filterMap_secName_single]
    | some pair =>
      obtain ⟨seg, rest2⟩ := pair
      rw [jsSplit_eq_cons (by simp) hfs]
      have hlen : rest2.length < rest.length := findSub_shrink (by simp) hfs
      cases hsn : findSub [']', ']'] seg with
      | some p =>
        obtain ⟨b, a⟩ := p
        simp [List.filterMap_cons, secName, hsn, ih rest2 (by omega)]
      | none => simp [List.filterMap_cons, secName, hsn, ih rest2 (by omega)]

/-- C5 (amended): for every input text, the extractor returns exactly the
names obtained segment-wise: the text is cut at the leftmost non-overlapping
open bracket pairs, and each piece after such a pair that contains a closing
pair before the next open pair contributes the portion before its first
closing pair, cut at the first pipe and trimmed; hence when another open pair
intervenes before the closing pair, the name starts after the last such open
pair, and an unterminated open pair still contributes nothing. -/
theorem C5_extract_links_segmentwise :
    ∀ t, extractExistingLinks t = linksScan t := by
  intro t
  unfold extractExistingLinks linksScan
  cases hfs : findSub ['[', '['] t with
  | none => rw [jsSplit_eq_single hfs]; rfl
  | some pair =>
    obtain ⟨b, rest⟩ := pair
    rw [jsSplit_eq_cons (by simp) hfs]
    show List.filterMap secName (jsSplit ['[', '['] rest) =
      linksScanTailF (rest.length + 1) rest
    exact linksScanTailF_spec (rest.length + 1) rest (by omega)

/-! Block-list tag form: claim C7. -/

/-- C7 counterexample: the source and the claimed block-list form disagree in
three ways: a bare dash line keeps the source block open while the claim ends
it there; a leading-whitespace opener is accepted by the claim but not by the
source pattern; and an opener with trailing content is accepted by the source
pattern but not by the claim. -/
theorem C7_counterexample :
    (blockTags [tagsLit ++ [':'], ['-'], ['-', ' ', 'a']] = [['a']] ∧
     blockTagsClaim [tagsLit ++ [':'], ['-'], ['-', ' ', 'a']] = []) ∧
    (blockTags [[' ', ' '] ++ tagsLit ++ [':'], ['-', ' ', 'b']] = [] ∧
     blockTagsClaim [[' ', ' '] ++ tagsLit ++ [':'], ['-', ' ', 'b']] = [['b']]) ∧
    (blockTags [tagsLit ++ [':', ' ', 'x'], ['-', ' ', 'c']] = [['c']] ∧
     blockTagsClaim [tagsLit ++ [':', ' ', 'x'], ['-', ' ', 'c']] = []) := by
  decide

theorem blockTags_foldl :
    ∀ (lines : List (List Char)) (acc : List (List Char)) (b : Bool),
      (lines.foldl blockStep (acc, b)).1 = acc ++ blockTagsSpecAux b lines := by
  intro lines
  induction lines with
  | nil => intro acc b; simp [blockTagsSpecAux]
  | cons l ls ih =>
    intro acc b
    show (ls.foldl blockStep (blockStep (acc, b) l)).1 = acc ++ blockTagsSpecAux b (l :: ls)
    unfold blockStep blockTagsSpecAux
    by_cases ho : isTagsOpener l = true
    · rw [if_pos ho, if_pos ho]
      exact ih acc true
    · rw [if_neg ho, if_neg ho]
      cases b with
      | true =>
        rw [if_pos rfl, if_pos rfl]
        cases hli : listItem l with
        | some v =>
          show (ls.foldl blockStep (acc ++ [v], true)).1 = acc ++ (v :: blockTagsSpecAux true ls)
          rw [ih (acc ++ [v]) true]
          simp
        | none =>
          by_cases hdash : (trimL l).head? = some '-'
          · rw [if_pos hdash, if_pos hdash]
            exact ih acc true
          · rw [if_neg hdash, if_neg hdash]
            exact ih acc false
      | false =>
        rw [if_neg (by simp), if_neg (by simp)]
        exact ih acc false

theorem blockTagsSpecAux_step (b : Bool) (l : List Char) (ls : List (List Char)) :
    blockTagsSpecAux b (l :: ls) =
      (if isTagsOpener l = true then blockTagsSpecAux true ls
       else if b = true then
         match listItem l with
         | some v => v :: blockTagsSpecAux true ls
         | none =>
           if (trimL l).head? = some '-' then blockTagsSpecAux true ls
           else blockTagsSpecAux false ls
       else blockTagsSpecAux false ls) := rfl

theorem blockTagsSpecAux_items :
    ∀ (p rest0 : List (List Char)),
      (∀ l ∈ p, isTagsOpener l = false ∧ (trimL l).head? = some '-') →
      blockTagsSpecAux true (p ++ rest0) =
        p.filterMap listItem ++ blockTagsSpecAux true rest0 := by
  intro p
  induction p with
  | nil => intro rest0 _; rfl
  | cons l p' ih =>
    intro rest0 hp
    obtain ⟨ho, hdash⟩ := hp l (by simp)
    show blockTagsSpecAux true (l :: (p' ++ rest0)) = _
    rw [blockTagsSpecAux_step]
    rw [if_neg (by simp [ho]), if_pos rfl]
    cases hli : listItem l with
    | some v =>
      rw [ih rest0 (fun x hx => hp x (by simp [hx]))]
      simp [List.filterMap_cons, hli]
    | none =>
      rw [if_pos hdash, ih rest0 (fun x hx => hp x (by simp [hx]))]
      simp [List.filterMap_cons, hli]

theorem blockTagsSpecAux_closed :
    ∀ (rest : List (List Char)), (∀ l ∈ rest, isTagsOpener l = false) →
      blockTagsSpecAux false rest = [] := by
  intro rest
  induction rest with
  | nil => intro _; rfl
  | cons l ls ih =>
    intro h
    unfold blockTagsSpecAux
    rw [if_neg (by simp [h l (by simp)]), if_neg (by simp)]
    exact ih (fun x hx => h x (by simp [hx]))

/-- C7 (amended): the block-list form opens at any line matching the pattern
tags-whitespace-colon anchored at column zero (no leading whitespace, any
trailing content); the following lines matching the dash item pattern each
contribute their trimmed value; a following non-item line whose trimmed form
starts with a dash keeps the block open without contributing; the block ends
at the first following line that neither is an item nor starts, after
trimming, with a dash (a later opener line reopens a block).  The first
conjunct restates the source loop as this recursion; the second shows that
under an opener, item and dash lines contribute exactly the item values until
the first such terminator, after which opener-free lines contribute
nothing. -/
theorem C7_block_list_amended :
    (∀ lines, blockTags lines = blockTagsSpecAux false lines) ∧
    (∀ (o t : List Char) (p rest : List (List Char)), isTagsOpener o = true →
      (∀ l ∈ p, isTagsOpener l = false ∧ (trimL l).head? = some '-') →
      isTagsOpener t = false → listItem t = none → (trimL t).head? ≠ some '-' →
      (∀ l ∈ rest, isTagsOpener l = false) →
      blockTags (o :: p ++ t :: rest) = p.filterMap listItem) := by
  have hfold : ∀ lines, blockTags lines = blockTagsSpecAux false lines := by
    intro lines
    unfold blockTags
    rw [blockTags_foldl lines [] false]
    simp
  refine ⟨hfold, ?_⟩
  intro o t p rest ho hp ht hti htd hrest
  rw [hfold]
  show blockTagsSpecAux false (o :: (p ++ t :: rest)) = p.filterMap listItem
  unfold blockTagsSpecAux
  rw [if_pos ho]
  rw [blockTagsSpecAux_items p (t :: rest) hp]
  unfold blockTagsSpecAux
  rw [if_neg (by simp [ht]), if_pos rfl, hti, if_neg htd]
  rw [blockTagsSpecAux_closed rest hrest]
  simp

/-- C7 witness: the amended segment property at a concrete block. -/
theorem C7_witness :
    blockTags ((tagsLit ++ [':']) :: [['-'], ['-', ' ', 'a']] ++ ['x'] :: [['-', ' ', 'z']]) =
      [['-'], ['-', ' ', 'a']].filterMap listItem :=
  C7_block_list_amended.2 (tagsLit ++ [':']) ['x'] [['-'], ['-', ' ', 'a']] [['-', ' ', 'z']]
    (by decide) (by decide) (by decide) (by decide) (by decide) (by decide)

/-! Inline-list tag form: claim C6. -/

/-- C6 counterexample: a front-matter that contains the inline-list line
tags-colon-bracket-a-comma-b-bracket but whose first inline-array match is an
earlier tags line: only the first match contributes, so neither a nor b is
returned. -/
theorem C6_counterexample :
    frontmatterOf
        (['-', '-', '-', '\n'] ++ (tagsLit ++ [':', ' ', '[', 'x', ']', '\n']) ++
         (tagsLit ++ [':', ' ', '[', 'a', ',', ' ', 'b', ']']) ++ ['\n', '-', '-', '-']) =
      some ((tagsLit ++ [':', ' ', '[', 'x', ']', '\n']) ++
        (tagsLit ++ [':', ' ', '[', 'a', ',', ' ', 'b', ']'])) ∧
    (tagsLit ++ [':', ' ', '[', 'a', ',', ' ', 'b', ']']) ∈
      jsSplit ['\n'] ((tagsLit ++ [':', ' ', '[', 'x', ']', '\n']) ++
        (tagsLit ++ [':', ' ', '[', 'a', ',', ' ', 'b', ']'])) ∧
    extractTags
        (['-', '-', '-', '\n'] ++ (tagsLit ++ [':', ' ', '[', 'x', ']', '\n']) ++
         (tagsLit ++ [':', ' ', '[', 'a', ',', ' ', 'b', ']']) ++ ['\n', '-', '-', '-']) =
      [['x']] ∧
    ¬ (['a'] ∈ extractTags
        (['-', '-', '-', '\n'] ++ (tagsLit ++ [':', ' ', '[', 'x', ']', '\n']) ++
         (tagsLit ++ [':', ' ', '[', 'a', ',', ' ', 'b', ']']) ++ ['\n', '-', '-', '-'])) := by
  decide

theorem inlineTags_of_capture {fm a b : List Char}
    (hcap : inlineArrMatch fm = some (a ++ ',' :: b))
    (ha : ∀ c ∈ a, c ≠ ',') (hb : ∀ c ∈ b, c ≠ ',')
    (hta : (trimL a).isEmpty = false) (htb : (trimL b).isEmpty = false) :
    inlineTags fm = [trimL a, trimL b] := by
  unfold inlineTags
  rw [hcap]
  show (if (a ++ ',' :: b).isEmpty = true then []
        else List.filter (fun t => !t.isEmpty) (List.map trimL (jsSplit [','] (a ++ ',' :: b)))) =
    [trimL a, trimL b]
  have hne : ¬((a ++ ',' :: b).isEmpty = true) := by cases a <;> simp
  rw [if_neg hne, jsSplit_single_pair ha hb]
  show List.filter (fun t => !t.isEmpty) [trimL a, trimL b] = [trimL a, trimL b]
  rw [List.filter_cons, List.filter_cons]
  rw [show (!(trimL a).isEmpty) = true by rw [hta]; rfl]
  rw [show (!(trimL b).isEmpty) = true by rw [htb]; rfl]
  simp

/-- C6 (amended): for every note text whose front-matter's first inline-array
match captures a-comma-b with a and b comma-free and nonempty after trimming,
extract_tags returns the scalar-form tags, then the trimmed a followed by the
trimmed b, then the block-list tags, then the inline body tags: a and b appear
in that relative order, every front-matter-derived tag precedes every
inline-derived tag, and no deduplication is applied. -/
theorem C6_inline_list_amended (content fm a b : List Char)
    (hfm : frontmatterOf content = some fm)
    (hcap : inlineArrMatch fm = some (a ++ ',' :: b))
    (ha : ∀ c ∈ a, c ≠ ',') (hb : ∀ c ∈ b, c ≠ ',')
    (hta : (trimL a).isEmpty = false) (htb : (trimL b).isEmpty = false) :
    extractTags content =
      scalarTags fm ++ ([trimL a, trimL b] ++
        (blockTags (jsSplit ['\n'] fm) ++ bodyTags content)) := by
  unfold extractTags
  rw [hfm]
  show fmTags fm ++ bodyTags content = _
  unfold fmTags
  rw [inlineTags_of_capture hcap ha hb hta htb]
  simp [List.append_assoc]

/-- C6 witness: the amended statement at the concrete scenario front
matter. -/
theorem C6_witness :
    extractTags (['-', '-', '-', '\n'] ++ (tagsLit ++ [':', ' ', '[', 'a', ',', ' ', 'b', ']']) ++
        ['\n', '-', '-', '-']) =
      scalarTags (tagsLit ++ [':', ' ', '[', 'a', ',', ' ', 'b', ']']) ++
        ([trimL ['a'], trimL [' ', 'b']] ++
          (blockTags (jsSplit ['\n'] (tagsLit ++ [':', ' ', '[', 'a', ',', ' ', 'b', ']'])) ++
            bodyTags (['-', '-', '-', '\n'] ++
              (tagsLit ++ [':', ' ', '[', 'a', ',', ' ', 'b', ']']) ++ ['\n', '-', '-', '-']))) :=
  C6_inline_list_amended
    (['-', '-', '-', '\n'] ++ (tagsLit ++ [':', ' ', '[', 'a', ',', ' ', 'b', ']']) ++
      ['\n', '-', '-', '-'])
    (tagsLit ++ [':', ' ', '[', 'a', ',', ' ', 'b', ']'])
    ['a'] [' ', 'b']
    (by decide) (by decide) (by decide) (by decide) (by decide) (by decide)

/-! Mapping resolution: claim C8. -/

theorem stripHash_of_no_hash {t : List Char} (h : t.head? ≠ some '#') :
    stripHash t = t := by
  cases t with
  | nil => rfl
  | cons c ts =>
    simp only [List.head?_cons, ne_eq, Option.some.injEq] at h
    unfold stripHash
    split
    · next r heq =>
        exfalso
        exact h (List.cons.injEq .. ▸ heq).1
    · rfl

/-- C8: mapping resolution returns exactly the mappings whose hash-stripped
tag equals the note tag's hash-stripped form (string equality, hence
case-sensitive and without partial matching); prefixing a hash-free tag with a
hash resolves identically; and when nothing matches the result is the empty
list, not an error. -/
theorem C8_resolve_mappings :
    (∀ (tag : List Char) (mappings : List Mapping) (m : Mapping),
      m ∈ resolveTag tag mappings ↔ m ∈ mappings ∧ stripHash m.tag = stripHash tag) ∧
    (∀ (t : List Char) (mappings : List Mapping), t.head? ≠ some '#' →
      resolveTag ('#' :: t) mappings = resolveTag t mappings) ∧
    (∀ (tag : List Char) (mappings : List Mapping),
      (∀ m ∈ mappings, stripHash m.tag ≠ stripHash tag) →
      resolveTag tag mappings = []) := by
  refine ⟨?_, ?_, ?_⟩
  · intro tag mappings m
    unfold resolveTag
    rw [List.mem_filter]
    simp
  · intro t mappings h
    unfold resolveTag
    rw [show stripHash ('#' :: t) = t from rfl, stripHash_of_no_hash h]
  · intro tag mappings h
    unfold resolveTag
    rw [List.filter_eq_nil_iff]
    intro m hm
    simp [h m hm]

/-- C8 witness: a mapping with the tag maths is resolved identically for the
hashed and unhashed note tag. -/
theorem C8_witness :
    resolveTag ('#' :: ['m', 'a', 't', 'h', 's'])
        [{ tag := ['m', 'a', 't', 'h', 's'], mocPath := ['M', 'O', 'C'] }] =
      resolveTag ['m', 'a', 't', 'h', 's']
        [{ tag := ['m', 'a', 't', 'h', 's'], mocPath := ['M', 'O', 'C'] }] :=
  C8_resolve_mappings.2.1 ['m', 'a', 't', 'h', 's']
    [{ tag := ['m', 'a', 't', 'h', 's'], mocPath := ['M', 'O', 'C'] }] (by decide)

/-! Association-list lemmas for the run state. -/

theorem lookupA_setA_self (k : List Char) (v : α) :
    ∀ l : List (List Char × α), lookupA k (setA k v l) = some v := by
  intro l
  induction l with
  | nil => simp [setA, lookupA]
  | cons kv rest ih =>
    obtain ⟨k2, v2⟩ := kv
    by_cases h : k2 = k
    · simp [setA, h, lookupA]
    · simp [setA, h, lookupA, ih]

theorem lookupA_setA_ne (k k' : List Char) (v : α) (h : k' ≠ k) :
    ∀ l : List (List Char × α), lookupA k' (setA k v l) = lookupA k' l := by
  intro l
  have hk : ¬(k = k') := fun hh => h hh.symm
  induction l with
  | nil =>
    show lookupA k' [(k, v)] = none
    simp [lookupA, hk]
  | cons kv rest ih =>
    obtain ⟨k2, v2⟩ := kv
    show lookupA k' (if k2 = k then (k, v) :: rest else (k2, v2) :: setA k v rest) =
      lookupA k' ((k2, v2) :: rest)
    by_cases h2 : k2 = k
    · rw [if_pos h2]
      subst h2
      simp [lookupA, hk]
    · rw [if_neg h2]
      by_cases h3 : k2 = k'
      · simp [lookupA, h3]
      · simp [lookupA, h3, ih]

/-! Unfolding equations for the orchestrator steps. -/

theorem insertStep_eq (S : Settings) (wF : List (List Char)) (f : FileMeta)
    (st : RunState) (mocPath hubContent : List Char) (links : List (List Char)) :
    insertStep S wF f st mocPath hubContent links =
      if f.basename ∈ links then st
      else if mocPath ∈ wF then st
      else
        { vault := setA mocPath
            (addLinkToMOC hubContent (replaceFirst fileNamePat f.basename S.appendFormat)
              (if S.sectionHeading.isEmpty = true then defaultHeading else S.sectionHeading))
            st.vault
          cache := setA mocPath
            (addLinkToMOC hubContent (replaceFirst fileNamePat f.basename S.appendFormat)
              (if S.sectionHeading.isEmpty = true then defaultHeading else S.sectionHeading),
             links ++ [f.basename]) st.cache
          events := st.events ++ [(mocPath, f.basename)] } := rfl

theorem processMapping_eq (S : Settings) (rF wF : List (List Char)) (f : FileMeta)
    (st : RunState) (m : Mapping) :
    processMapping S rF wF f st m =
      if m.mocPath.isEmpty = true then st
      else
        match lookupA (ensureMdExtension m.mocPath) st.vault with
        | none => st
        | some hubContent =>
          match lookupA (ensureMdExtension m.mocPath) st.cache with
          | some (c, links) => insertStep S wF f st (ensureMdExtension m.mocPath) c links
          | none =>
            if ensureMdExtension m.mocPath ∈ rF then st
            else
              insertStep S wF f
                { st with cache :=
                    (setA (ensureMdExtension m.mocPath)
                      (hubContent, extractExistingLinks hubContent) st.cache) }
                (ensureMdExtension m.mocPath) hubContent
                (extractExistingLinks hubContent) := rfl

theorem insertStep_writeFail (S : Settings) (wF : List (List Char)) (f : FileMeta)
    (st : RunState) (mocPath hubContent : List Char) (links : List (List Char))
    (h : mocPath ∈ wF) : insertStep S wF f st mocPath hubContent links = st := by
  rw [insertStep_eq]
  by_cases hmem : f.basename ∈ links
  · rw [if_pos hmem]
  · rw [if_neg hmem, if_pos h]

/-! Error handling: claim C9. -/

/-- C9: a failing note read skips exactly that file and the run continues
with the remaining files; a failing hub read with no cached entry skips that
mapping and leaves the state unchanged; a failing hub write leaves the vault,
the event list (hence the links-added counter) and any existing cache entry
for that hub unchanged; the run is a total fold, so it always completes and
reports the event count. -/
theorem C9_failures_skip_item :
    (∀ (S : Settings) (rF wF : List (List Char)) (st : RunState) (f : FileMeta),
      f.path ∈ rF → processFile S rF wF st f = st) ∧
    (∀ (S : Settings) (rF wF : List (List Char)) (f : FileMeta) (fs : List FileMeta)
      (st : RunState), f.path ∈ rF →
      runFiles S rF wF (f :: fs) st = runFiles S rF wF fs st) ∧
    (∀ (S : Settings) (rF wF : List (List Char)) (f : FileMeta) (st : RunState)
      (m : Mapping), ensureMdExtension m.mocPath ∈ rF →
      lookupA (ensureMdExtension m.mocPath) st.cache = none →
      processMapping S rF wF f st m = st) ∧
    (∀ (S : Settings) (rF wF : List (List Char)) (f : FileMeta) (st : RunState)
      (m : Mapping), ensureMdExtension m.mocPath ∈ wF →
      (processMapping S rF wF f st m).vault = st.vault ∧
      (processMapping S rF wF f st m).events = st.events ∧
      (∀ e, lookupA (ensureMdExtension m.mocPath) st.cache = some e →
        lookupA (ensureMdExtension m.mocPath) (processMapping S rF wF f st m).cache = some e)) := by
  have hfile : ∀ (S : Settings) (rF wF : List (List Char)) (st : RunState) (f : FileMeta),
      f.path ∈ rF → processFile S rF wF st f = st := by
    intro S rF wF st f h
    unfold processFile
    by_cases he : f.extension ≠ ['m', 'd']
    · rw [if_pos he]
    · rw [if_neg he, if_pos h]
  refine ⟨hfile, ?_, ?_, ?_⟩
  · intro S rF wF f fs st h
    show List.foldl (processFile S rF wF) (processFile S rF wF st f) fs =
      List.foldl (processFile S rF wF) st fs
    rw [hfile S rF wF st f h]
  · intro S rF wF f st m h hc
    rw [processMapping_eq]
    by_cases hemp : m.mocPath.isEmpty = true
    · rw [if_pos hemp]
    · rw [if_neg hemp]
      cases hv : lookupA (ensureMdExtension m.mocPath) st.vault with
      | none => rfl
      | some hubContent =>
        rw [hc]
        exact if_pos h
  · intro S rF wF f st m h
    have hmock : ∀ st2 : RunState, processMapping S rF wF f st2 m = st2 ∨
        (∃ hubContent, lookupA (ensureMdExtension m.mocPath) st2.cache = none ∧
          processMapping S rF wF f st2 m =
            { st2 with cache :=
                (setA (ensureMdExtension m.mocPath)
                  (hubContent, extractExistingLinks hubContent) st2.cache) }) := by
      intro st2
      rw [processMapping_eq]
      by_cases hemp : m.mocPath.isEmpty = true
      · rw [if_pos hemp]; exact Or.inl rfl
      · rw [if_neg hemp]
        cases hv : lookupA (ensureMdExtension m.mocPath) st2.vault with
        | none => exact Or.inl rfl
        | some hubContent =>
          cases hc : lookupA (ensureMdExtension m.mocPath) st2.cache with
          | some entry =>
            obtain ⟨c, links⟩ := entry
            exact Or.inl (insertStep_writeFail S wF f st2 (ensureMdExtension m.mocPath) c links h)
          | none =>
            by_cases hr : ensureMdExtension m.mocPath ∈ rF
            · exact Or.inl (if_pos hr)
            · refine Or.inr ⟨hubContent, rfl, ?_⟩
              show (if ensureMdExtension m.mocPath ∈ rF then st2
                    else insertStep S wF f
                      { st2 with cache :=
                          (setA (ensureMdExtension m.mocPath)
                            (hubContent, extractExistingLinks hubContent) st2.cache) }
                      (ensureMdExtension m.mocPath) hubContent
                      (extractExistingLinks hubContent)) =
                { st2 with cache :=
                    (setA (ensureMdExtension m.mocPath)
                      (hubContent, extractExistingLinks hubContent) st2.cache) }
              rw [if_neg hr]
              exact insertStep_writeFail S wF f _ (ensureMdExtension m.mocPath) hubContent
                (extractExistingLinks hubContent) h
    rcases hmock st with heq | ⟨hubContent, hc, heq⟩
    · rw [heq]
      exact ⟨rfl, rfl, fun e he => he⟩
    · rw [heq]
      refine ⟨rfl, rfl, fun e he => ?_⟩
      rw [hc] at he
      exact absurd he (by simp)

/-- C9 witness: the failure behaviour at a concrete state: a read-failing
note leaves the state unchanged, the run on that note plus no others equals
the empty run, a read-failing hub leaves the state unchanged, and a
write-failing hub leaves vault and events unchanged. -/
theorem C9_witness :
    processFile specSettings [['A', '.', 'm', 'd']] []
        { vault := specVault, cache := [], events := [] }
        { path := ['A', '.', 'm', 'd'], basename := ['A'], extension := ['m', 'd'] } =
      { vault := specVault, cache := [], events := [] } ∧
    runFiles specSettings [['A', '.', 'm', 'd']] []
        [{ path := ['A', '.', 'm', 'd'], basename := ['A'], extension := ['m', 'd'] }]
        { vault := specVault, cache := [], events := [] } =
      runFiles specSettings [['A', '.', 'm', 'd']] [] []
        { vault := specVault, cache := [], events := [] } ∧
    processMapping specSettings [['M', 'O', 'C', '.', 'm', 'd']] []
        { path := ['A', '.', 'm', 'd'], basename := ['A'], extension := ['m', 'd'] }
        { vault := specVault, cache := [], events := [] }
        { tag := ['m', 'a', 't', 'h', 's'], mocPath := ['M', 'O', 'C'] } =
      { vault := specVault, cache := [], events := [] } ∧
    (processMapping specSettings [] [['M', 'O', 'C', '.', 'm', 'd']]
        { path := ['A', '.', 'm', 'd'], basename := ['A'], extension := ['m', 'd'] }
        { vault := specVault, cache := [], events := [] }
        { tag := ['m', 'a', 't', 'h', 's'], mocPath := ['M', 'O', 'C'] }).vault = specVault ∧
    (processMapping specSettings [] [['M', 'O', 'C', '.', 'm', 'd']]
        { path := ['A', '.', 'm', 'd'], basename := ['A'], extension := ['m', 'd'] }
        { vault := specVault, cache := [], events := [] }
        { tag := ['m', 'a', 't', 'h', 's'], mocPath := ['M', 'O', 'C'] }).events = [] :=
  ⟨C9_failures_skip_item.1 specSettings [['A', '.', 'm', 'd']] []
      { vault := specVault, cache := [], events := [] }
      { path := ['A', '.', 'm', 'd'], basename := ['A'], extension := ['m', 'd'] }
      (by decide),
   C9_failures_skip_item.2.1 specSettings [['A', '.', 'm', 'd']] []
      { path := ['A', '.', 'm', 'd'], basename := ['A'], extension := ['m', 'd'] } []
      { vault := specVault, cache := [], events := [] }
      (by decide),
   C9_failures_skip_item.2.2.1 specSettings [['M', 'O', 'C', '.', 'm', 'd']] []
      { path := ['A', '.', 'm', 'd'], basename := ['A'], extension := ['m', 'd'] }
      { vault := specVault, cache := [], events := [] }
      { tag := ['m', 'a', 't', 'h', 's'], mocPath := ['M', 'O', 'C'] }
      (by decide) (by decide),
   (C9_failures_skip_item.2.2.2 specSettings [] [['M', 'O', 'C', '.', 'm', 'd']]
      { path := ['A', '.', 'm', 'd'], basename := ['A'], extension := ['m', 'd'] }
      { vault := specVault, cache := [], events := [] }
      { tag := ['m', 'a', 't', 'h', 's'], mocPath := ['M', 'O', 'C'] }
      (by decide)).1,
   (C9_failures_skip_item.2.2.2 specSettings [] [['M', 'O', 'C', '.', 'm', 'd']]
      { path := ['A', '.', 'm', 'd'], basename := ['A'], extension := ['m', 'd'] }
      { vault := specVault, cache := [], events := [] }
      { tag := ['m', 'a', 't', 'h', 's'], mocPath := ['M', 'O', 'C'] }
      (by decide)).2.1⟩

/-! Cross-run idempotence: claim C1. -/

theorem foldl_keeps {α β : Type _} (P : β → Prop) (f : β → α → β) :
    ∀ (l : List α), (∀ b a, a ∈ l → P b → P (f b a)) → ∀ st, P st → P (l.foldl f st) := by
  intro l
  induction l with
  | nil => intro _ st h0; exact h0
  | cons a as ih =>
    intro hstep st h0
    show P (as.foldl f (f st a))
    exact ih (fun b x hx hb => hstep b x (by simp [hx]) hb) (f st a) (hstep st a (by simp) h0)

theorem cacheFaithful_setA {V : List (List Char × List Char)}
    {cache : List (List Char × (List Char × List (List Char)))}
    (hcf : cacheFaithful V cache) {p hub : List Char}
    (hp : lookupA p V = some hub) :
    cacheFaithful V (setA p (hub, extractExistingLinks hub) cache) := by
  intro q c ls hq
  by_cases hqp : q = p
  · subst hqp
    rw [lookupA_setA_self] at hq
    injection hq with hpair
    injection hpair with h1 h2
    subst h1
    subst h2
    exact ⟨hp, rfl⟩
  · rw [lookupA_setA_ne p q _ hqp] at hq
    exact hcf q c ls hq

theorem processMapping_linked_eq (S : Settings) (rF wF : List (List Char)) (f : FileMeta)
    (V : List (List Char × List Char)) (m : Mapping) (st : RunState)
    (hv : st.vault = V) (hcf : cacheFaithful V st.cache)
    (hlk : mappingLinkedB V f m = true) :
    processMapping S rF wF f st m = st ∨
    ∃ hub, lookupA (ensureMdExtension m.mocPath) V = some hub ∧
      processMapping S rF wF f st m =
        { st with cache := (setA (ensureMdExtension m.mocPath)
            (hub, extractExistingLinks hub) st.cache) } := by
  rw [processMapping_eq]
  by_cases hemp : m.mocPath.isEmpty = true
  · rw [if_pos hemp]; exact Or.inl rfl
  · rw [if_neg hemp]
    cases hvv : lookupA (ensureMdExtension m.mocPath) st.vault with
    | none => exact Or.inl rfl
    | some hub =>
      have hVhub : lookupA (ensureMdExtension m.mocPath) V = some hub := hv ▸ hvv
      have hmem : f.basename ∈ extractExistingLinks hub := by
        unfold mappingLinkedB at hlk
        simp only [hVhub] at hlk
        simp only [Bool.or_eq_true] at hlk
        rcases hlk with h | h
        · exact absurd h hemp
        · exact List.mem_of_elem_eq_true h
      cases hcc : lookupA (ensureMdExtension m.mocPath) st.cache with
      | some entry =>
        obtain ⟨c, links⟩ := entry
        obtain ⟨hc1, hc2⟩ := hcf _ _ _ hcc
        have hcu : c = hub := by
          rw [hVhub] at hc1
          injection hc1 with h1
          exact h1.symm
        left
        show insertStep S wF f st (ensureMdExtension m.mocPath) c links = st
        rw [insertStep_eq, if_pos (by rw [hc2, hcu]; exact hmem)]
      | none =>
        by_cases hr : ensureMdExtension m.mocPath ∈ rF
        · exact Or.inl (if_pos hr)
        · right
          refine ⟨hub, hVhub, ?_⟩
          show (if ensureMdExtension m.mocPath ∈ rF then st
                else insertStep S wF f
                  { st with cache :=
                      (setA (ensureMdExtension m.mocPath)
                        (hub, extractExistingLinks hub) st.cache) }
                  (ensureMdExtension m.mocPath) hub
                  (extractExistingLinks hub)) =
            { st with cache :=
                (setA (ensureMdExtension m.mocPath)
                  (hub, extractExistingLinks hub) st.cache) }
          rw [if_neg hr, insertStep_eq, if_pos hmem]

theorem processMapping_keeps (S : Settings) (rF wF : List (List Char)) (f : FileMeta)
    (V : List (List Char × List Char)) (m : Mapping)
    (hlk : mappingLinkedB V f m = true) (st : RunState)
    (h : st.vault = V ∧ st.events = [] ∧ cacheFaithful V st.cache) :
    (processMapping S rF wF f st m).vault = V ∧
    (processMapping S rF wF f st m).events = [] ∧
    cacheFaithful V (processMapping S rF wF f st m).cache := by
  obtain ⟨hv, hev, hcf⟩ := h
  rcases processMapping_linked_eq S rF wF f V m st hv hcf hlk with heq | ⟨hub, hp, heq⟩
  · rw [heq]; exact ⟨hv, hev, hcf⟩
  · rw [heq]
    exact ⟨hv, hev, cacheFaithful_setA hcf hp⟩

theorem processTag_keeps (S : Settings) (rF wF : List (List Char)) (f : FileMeta)
    (V : List (List Char × List Char)) (tag : List Char)
    (hlk : tagLinkedB V S.tagMappings f tag = true) (st : RunState)
    (h : st.vault = V ∧ st.events = [] ∧ cacheFaithful V st.cache) :
    (processTag S rF wF f st tag).vault = V ∧
    (processTag S rF wF f st tag).events = [] ∧
    cacheFaithful V (processTag S rF wF f st tag).cache := by
  unfold processTag
  unfold tagLinkedB at hlk
  exact foldl_keeps
    (fun b : RunState => b.vault = V ∧ b.events = [] ∧ cacheFaithful V b.cache)
    (processMapping S rF wF f) (resolveTag tag S.tagMappings)
    (fun b m hm hb =>
      processMapping_keeps S rF wF f V m (List.all_eq_true.mp hlk m hm) b hb)
    st h

theorem processFile_keeps (S : Settings) (rF wF : List (List Char))
    (V : List (List Char × List Char)) (f : FileMeta)
    (hlk : fileLinkedB V S.tagMappings f = true) (st : RunState)
    (h : st.vault = V ∧ st.events = [] ∧ cacheFaithful V st.cache) :
    (processFile S rF wF st f).vault = V ∧
    (processFile S rF wF st f).events = [] ∧
    cacheFaithful V (processFile S rF wF st f).cache := by
  obtain ⟨hv, hev, hcf⟩ := h
  unfold processFile
  by_cases he : f.extension ≠ ['m', 'd']
  · rw [if_pos he]; exact ⟨hv, hev, hcf⟩
  · rw [if_neg he]
    by_cases hrf : f.path ∈ rF
    · rw [if_pos hrf]; exact ⟨hv, hev, hcf⟩
    · rw [if_neg hrf]
      cases hcont : lookupA f.path st.vault with
      | none => exact ⟨hv, hev, hcf⟩
      | some content =>
        have hcV : lookupA f.path V = some content := hv ▸ hcont
        have htags : ∀ tag ∈ extractTags content,
            tagLinkedB V S.tagMappings f tag = true := by
          unfold fileLinkedB at hlk
          rw [if_pos (not_ne_iff.mp he)] at hlk
          simp only [hcV] at hlk
          exact List.all_eq_true.mp hlk
        exact foldl_keeps
          (fun b : RunState => b.vault = V ∧ b.events = [] ∧ cacheFaithful V b.cache)
          (processTag S rF wF f) (extractTags content)
          (fun b tag htag hb => processTag_keeps S rF wF f V tag (htags tag htag) b hb)
          st ⟨hv, hev, hcf⟩

/-- C1: when every (note, hub) pair selected by the mappings already has the
note's basename among the hub's extracted links, a full run leaves the vault
byte-for-byte unchanged and reports zero links added; and in the concrete
scenario the first run turns the hub into the heading followed by the link
line for A with a count of one, while a second run changes nothing and
reports zero. -/
theorem C1_rerun_is_noop :
    (∀ (V : List (List Char × List Char)) (files : List FileMeta) (S : Settings)
      (rF wF : List (List Char)), allLinkedB V files S.tagMappings = true →
      (runAutoIndex V files S rF wF).vault = V ∧
      (runAutoIndex V files S rF wF).events.length = 0) ∧
    (lookupA ['M', 'O', 'C', '.', 'm', 'd']
        (runAutoIndex specVault specFiles specSettings [] []).vault = some specHubAfter ∧
     (runAutoIndex specVault specFiles specSettings [] []).events.length = 1 ∧
     (runAutoIndex (runAutoIndex specVault specFiles specSettings [] []).vault specFiles
        specSettings [] []).vault = (runAutoIndex specVault specFiles specSettings [] []).vault ∧
     (runAutoIndex (runAutoIndex specVault specFiles specSettings [] []).vault specFiles
        specSettings [] []).events.length = 0) := by
  constructor
  · intro V files S rF wF hall
    have hfiles : ∀ f ∈ files, fileLinkedB V S.tagMappings f = true :=
      List.all_eq_true.mp hall
    have h := foldl_keeps
      (fun st : RunState => st.vault = V ∧ st.events = [] ∧ cacheFaithful V st.cache)
      (processFile S rF wF) files
      (fun b f hf hb => processFile_keeps S rF wF V f (hfiles f hf) b hb)
      { vault := V, cache := [], events := [] }
      ⟨rfl, rfl, fun p c ls hq => by simp [lookupA] at hq⟩
    obtain ⟨h1, h2, _⟩ := h
    have h1' : (runAutoIndex V files S rF wF).vault = V := h1
    have h2' : (runAutoIndex V files S rF wF).events = [] := h2
    exact ⟨h1', by rw [h2']; rfl⟩
  · exact ⟨by decide, by decide, by decide, by decide⟩

/-- C1 witness: the second run of the concrete scenario satisfies the
already-linked hypothesis, and the general statement applied there gives the
unchanged vault and the zero count. -/
theorem C1_witness :
    (runAutoIndex (runAutoIndex specVault specFiles specSettings [] []).vault specFiles
      specSettings [] []).vault = (runAutoIndex specVault specFiles specSettings [] []).vault ∧
    (runAutoIndex (runAutoIndex specVault specFiles specSettings [] []).vault specFiles
      specSettings [] []).events.length = 0 :=
  C1_rerun_is_noop.1 (runAutoIndex specVault specFiles specSettings [] []).vault specFiles
    specSettings [] [] (by decide)

/-! Within-run idempotence: claim C2. -/

theorem processMapping_shape (S : Settings) (rF wF : List (List Char)) (f : FileMeta)
    (st : RunState) (m : Mapping) :
    processMapping S rF wF f st m = st ∨
    ∃ st1 c links,
      processMapping S rF wF f st m =
        insertStep S wF f st1 (ensureMdExtension m.mocPath) c links ∧
      lookupA (ensureMdExtension m.mocPath) st1.cache = some (c, links) ∧
      (st1 = st ∨
        (lookupA (ensureMdExtension m.mocPath) st.cache = none ∧
         st1 = { st with cache := (setA (ensureMdExtension m.mocPath) (c, links) st.cache) })) := by
  rw [processMapping_eq]
  by_cases hemp : m.mocPath.isEmpty = true
  · rw [if_pos hemp]; exact Or.inl rfl
  · rw [if_neg hemp]
    cases hvv : lookupA (ensureMdExtension m.mocPath) st.vault with
    | none => exact Or.inl rfl
    | some hub =>
      cases hcc : lookupA (ensureMdExtension m.mocPath) st.cache with
      | some entry =>
        obtain ⟨c, links⟩ := entry
        right
        exact ⟨st, c, links, rfl, hcc, Or.inl rfl⟩
      | none =>
        by_cases hr : ensureMdExtension m.mocPath ∈ rF
        · exact Or.inl (if_pos hr)
        · right
          refine ⟨{ st with cache := (setA (ensureMdExtension m.mocPath)
              (hub, extractExistingLinks hub) st.cache) }, hub, extractExistingLinks hub,
              ?_, lookupA_setA_self _ _ _, Or.inr ⟨rfl, rfl⟩⟩
          show (if ensureMdExtension m.mocPath ∈ rF then st
                else insertStep S wF f
                  { st with cache :=
                      (setA (ensureMdExtension m.mocPath)
                        (hub, extractExistingLinks hub) st.cache) }
                  (ensureMdExtension m.mocPath) hub
                  (extractExistingLinks hub)) =
            insertStep S wF f
              { st with cache :=
                  (setA (ensureMdExtension m.mocPath)
                    (hub, extractExistingLinks hub) st.cache) }
              (ensureMdExtension m.mocPath) hub (extractExistingLinks hub)
          rw [if_neg hr]

theorem insertStep_inv (S : Settings) (wF : List (List Char)) (f : FileMeta)
    (st : RunState) (mocPath c0 : List Char) (links : List (List Char))
    (hcc : lookupA mocPath st.cache = some (c0, links))
    (hnd : st.events.Nodup) (hec : eventsCached st) :
    (insertStep S wF f st mocPath c0 links).events.Nodup ∧
    eventsCached (insertStep S wF f st mocPath c0 links) := by
  rw [insertStep_eq]
  by_cases hmem : f.basename ∈ links
  · rw [if_pos hmem]; exact ⟨hnd, hec⟩
  · rw [if_neg hmem]
    by_cases hw : mocPath ∈ wF
    · rw [if_pos hw]; exact ⟨hnd, hec⟩
    · rw [if_neg hw]
      have hnotin : (mocPath, f.basename) ∉ st.events := by
        intro hin
        obtain ⟨c', ls', hlook, hmem'⟩ := hec mocPath f.basename hin
        rw [hcc] at hlook
        injection hlook with hpair
        injection hpair with h1 h2
        rw [← h2] at hmem'
        exact hmem hmem'
      constructor
      · show (st.events ++ [(mocPath, f.basename)]).Nodup
        rw [List.nodup_append]
        refine ⟨hnd, List.nodup_singleton _, ?_⟩
        intro a ha hb
        simp at hb
        subst hb
        exact hnotin ha
      · intro hb nm hin
        have hin' : (hb, nm) ∈ st.events ++ [(mocPath, f.basename)] := hin
        rcases List.mem_append.mp hin' with hold | hnew
        · obtain ⟨c', ls', hlook, hmem'⟩ := hec hb nm hold
          by_cases hhb : hb = mocPath
          · subst hhb
            rw [hcc] at hlook
            injection hlook with hpair
            injection hpair with h1 h2
            refine ⟨addLinkToMOC c0 (replaceFirst fileNamePat f.basename S.appendFormat)
                (if S.sectionHeading.isEmpty = true then defaultHeading else S.sectionHeading),
              links ++ [f.basename], lookupA_setA_self _ _ _, ?_⟩
            rw [List.mem_append]
            left
            rw [← h2] at hmem'
            exact hmem'
          · refine ⟨c', ls', ?_, hmem'⟩
            show lookupA hb (setA mocPath _ st.cache) = _
            rw [lookupA_setA_ne mocPath hb _ hhb]
            exact hlook
        · simp only [List.mem_singleton, Prod.mk.injEq] at hnew
          obtain ⟨hb1, hb2⟩ := hnew
          subst hb1
          subst hb2
          refine ⟨addLinkToMOC c0 (replaceFirst fileNamePat f.basename S.appendFormat)
              (if S.sectionHeading.isEmpty = true then defaultHeading else S.sectionHeading),
            links ++ [f.basename], lookupA_setA_self _ _ _, ?_⟩
          rw [List.mem_append]
          right
          simp

theorem processMapping_inv (S : Settings) (rF wF : List (List Char)) (f : FileMeta)
    (st : RunState) (m : Mapping) (h : st.events.Nodup ∧ eventsCached st) :
    (processMapping S rF wF f st m).events.Nodup ∧
    eventsCached (processMapping S rF wF f st m) := by
  obtain ⟨hnd, hec⟩ := h
  rcases processMapping_shape S rF wF f st m with heq | ⟨st1, c, links, heq, hcc, hst1⟩
  · rw [heq]; exact ⟨hnd, hec⟩
  · rw [heq]
    have hinv1 : st1.events.Nodup ∧ eventsCached st1 := by
      rcases hst1 with rfl | ⟨hnone, heq1⟩
      · exact ⟨hnd, hec⟩
      · subst heq1
        refine ⟨hnd, ?_⟩
        intro hb nm hin
        have hin' : (hb, nm) ∈ st.events := hin
        obtain ⟨c', ls', hlook, hmem'⟩ := hec hb nm hin'
        by_cases hhb : hb = ensureMdExtension m.mocPath
        · subst hhb
          rw [hnone] at hlook
          exact absurd hlook (by simp)
        · refine ⟨c', ls', ?_, hmem'⟩
          show lookupA hb (setA (ensureMdExtension m.mocPath) (c, links) st.cache) = _
          rw [lookupA_setA_ne _ _ _ hhb]
          exact hlook
    exact insertStep_inv S wF f st1 (ensureMdExtension m.mocPath) c links hcc hinv1.1 hinv1.2

theorem processFile_inv (S : Settings) (rF wF : List (List Char)) (st : RunState)
    (f : FileMeta) (h : st.events.Nodup ∧ eventsCached st) :
    (processFile S rF wF st f).events.Nodup ∧ eventsCached (processFile S rF wF st f) := by
  unfold processFile
  by_cases he : f.extension ≠ ['m', 'd']
  · rw [if_pos he]; exact h
  · rw [if_neg he]
    by_cases hrf : f.path ∈ rF
    · rw [if_pos hrf]; exact h
    · rw [if_neg hrf]
      cases hcont : lookupA f.path st.vault with
      | none => exact h
      | some content =>
        refine foldl_keeps
          (fun b : RunState => b.events.Nodup ∧ eventsCached b)
          (processTag S rF wF f) (extractTags content)
          (fun b tag _ hb => ?_) st h
        exact foldl_keeps
          (fun b2 : RunState => b2.events.Nodup ∧ eventsCached b2)
          (processMapping S rF wF f) (resolveTag tag S.tagMappings)
          (fun b2 m _ hb2 => processMapping_inv S rF wF f b2 m hb2) b hb

/-- C2: within a single run a hub never receives two insertions for the same
note basename: the list of insertion events (normalized hub path paired with
the inserted basename) of a full run has no duplicates, because the per-hub
known-links cache is consulted before each insertion and refreshed with the
basename immediately after it. -/
theorem C2_no_duplicate_insertion :
    ∀ (V : List (List Char × List Char)) (files : List FileMeta) (S : Settings)
      (rF wF : List (List Char)), (runAutoIndex V files S rF wF).events.Nodup := by
  intro V files S rF wF
  have h := foldl_keeps
    (fun st : RunState => st.events.Nodup ∧ eventsCached st)
    (processFile S rF wF) files
    (fun b f _ hb => processFile_inv S rF wF b f hb)
    { vault := V, cache := [], events := [] }
    ⟨List.nodup_nil, fun hb nm hin => absurd hin (List.not_mem_nil _)⟩
  exact h.1
